import Mathlib

/-!
Verification development for the auto-import CLI.

The embedding models the TypeScript sources shallowly:
* JS strings are modelled as `List Char` (`Chars`); JS string primitives
  (`startsWith`, `slice`, `split`, `trim`, ...) become the corresponding
  list operations.
* Absolute file paths are POSIX strings; the Node `path` functions
  (`dirname`, `relative`, `resolve`) are modelled on normalized absolute
  paths via their segment lists.
* A file's text is modelled as its list of lines (`content.split  a la
  String.prototype.split on the newline character`), since every edit in
  `applyFixes` operates on that line list.
* Fallible I/O is modelled with `Option`: a read that throws is `none`.
-/

namespace AutoImport

abbrev Chars := List Char

/-- Convert a Lean string literal to the character-list model. -/
def cs (s : String) : Chars := s.toList

/-- The single-quote character used by generated import statements. -/
def qc : Char := Char.ofNat 39

/-- Opening brace character. -/
def obr : Char := Char.ofNat 123

/-- Closing brace character. -/
def cbr : Char := Char.ofNat 125

/-- JS `\w`-style identifier character: letter, digit or underscore. -/
def identChar (c : Char) : Bool := c.isAlpha || c.isDigit || c = '_'

/-- Drop `n` characters from the right, as in stripping a suffix. -/
def dropRightN (l : Chars) (n : Nat) : Chars := l.take (l.length - n)

/-- Model of `String.prototype.trim`: strip leading and trailing whitespace. -/
def trimChars (l : Chars) : Chars :=
  ((l.dropWhile Char.isWhitespace).reverse.dropWhile Char.isWhitespace).reverse

/-- Split a character list on a separator character (model of `split`). -/
def splitCh (sep : Char) (l : Chars) : List Chars :=
  l.foldr
    (fun c acc =>
      if c = sep then [] :: acc
      else
        match acc with
        | h :: t => (c :: h) :: t
        | [] => [[c]])
    [[]]

/-! ### Path model (Node `path`, POSIX, on normalized absolute paths) -/

/-- Segments of an absolute POSIX path (empty components dropped). -/
def splitPath (p : Chars) : List Chars :=
  (splitCh '/' p).filter (fun s => s ≠ [])

/-- Rebuild an absolute path from its segments. -/
def joinSegs (segs : List Chars) : Chars :=
  '/' :: (List.intercalate (cs "/") segs)

/-- Model of `path.dirname` on a normalized absolute path. -/
def dirnameP (p : Chars) : Chars :=
  joinSegs (splitPath p).dropLast

/-- Resolve `.` and `..` segments (the normalization step of `path.resolve`). -/
def normSegs (segs : List Chars) : List Chars :=
  segs.foldl
    (fun acc s =>
      if s = cs "." then acc
      else if s = cs ".." then acc.dropLast
      else acc ++ [s])
    []

/-- Model of `path.resolve(base, rel)` for an absolute normalized `base`. -/
def resolveP (base rel : Chars) : Chars :=
  if rel.head? = some '/' then joinSegs (normSegs (splitPath rel))
  else joinSegs (normSegs (splitPath base ++ splitPath rel))

/-- Drop the longest common leading run of segments from both lists. -/
def dropCommon : List Chars → List Chars → List Chars × List Chars
  | a :: as, b :: bs => if a = b then dropCommon as bs else (a :: as, b :: bs)
  | as, bs => (as, bs)

/-- Model of `path.relative(fromDir, toFile)` on normalized absolute paths:
up-segments to the common ancestor followed by the remaining segments of
the target, joined with the POSIX separator. -/
def relativeP (fromDir toFile : Chars) : Chars :=
  let (ups, downs) := dropCommon (splitPath fromDir) (splitPath toFile)
  List.intercalate (cs "/") (List.replicate ups.length (cs "..") ++ downs)

/-- The recognized source-file extensions of the stripping regex
in `importResolver.ts` (`\.(ts|tsx|js|jsx|py)$`). -/
def recognizedExts : List Chars :=
  [cs ".ts", cs ".tsx", cs ".js", cs ".jsx", cs ".py"]

/-- Model of `replace(/\.(ts|tsx|js|jsx|py)$/, '')`: remove the suffix when
the path ends in one of the recognized source extensions, else identity. -/
def stripExt (s : Chars) : Chars :=
  if (cs ".tsx").isSuffixOf s then dropRightN s 4
  else if (cs ".jsx").isSuffixOf s then dropRightN s 4
  else if (cs ".ts").isSuffixOf s then dropRightN s 3
  else if (cs ".js").isSuffixOf s then dropRightN s 3
  else if (cs ".py").isSuffixOf s then dropRightN s 3
  else s

/-! ### Data model (`importResolver.ts`, `autoImportCli.ts`) -/

/-- `ExportInfo` from `importResolver.ts`: one symbol a file exposes.
The optional `isType` field is modelled as a `Bool` defaulting to `false`. -/
structure ExportInfo where
  name : Chars
  source : Chars
  isDefault : Bool
  isType : Bool := false
deriving DecidableEq, Repr

/-- `PathAlias` from `importResolver.ts`.  The source field `prefix` is
renamed `aliasPre` (and `targetPrefix` to `targetPre`) in the embedding. -/
structure PathAlias where
  pattern : Chars
  aliasPre : Chars
  targetPre : Chars
deriving DecidableEq, Repr

/-- The fields of `tsconfig.json` consumed by `loadPathAliases`:
`compilerOptions.baseUrl` and `compilerOptions.paths` (in JSON key order). -/
structure TsConfig where
  baseUrl : Chars
  paths : List (Chars × List Chars)
deriving DecidableEq, Repr

/-- `ImportStatement` produced by the parser: module specifier, bound
names, and the default/namespace flags. -/
structure ImportStatement where
  source : Chars
  imports : List Chars
  isDefault : Bool
  isNamespace : Bool
deriving DecidableEq, Repr

/-- The `suggestion` payload of a `MissingImport` in `autoImportCli.ts`. -/
structure Suggestion where
  source : Chars
  isDefault : Bool
deriving DecidableEq, Repr

/-- `MissingImport` from `autoImportCli.ts`. -/
structure MissingImport where
  identifier : Chars
  file : Chars
  suggestion : Option Suggestion
deriving DecidableEq, Repr

/-! ### Path/alias resolver (`importResolver.ts`) -/

/-- JS `aliasPattern.replace('*', '')`: remove the first `*` only. -/
def removeFirstStar : Chars → Chars
  | [] => []
  | c :: rest => if c = '*' then rest else c :: removeFirstStar rest

/-- Stable insertion into a list sorted by descending `aliasPre` length.
An element inserted from the left goes before equal-length elements,
matching the stable JS `sort((a, b) => b.prefix.length - a.prefix.length)`. -/
def insertAlias (a : PathAlias) : List PathAlias → List PathAlias
  | [] => [a]
  | b :: bs =>
    if b.aliasPre.length ≤ a.aliasPre.length then a :: b :: bs
    else b :: insertAlias a bs

/-- Stable sort by descending alias-prefix length (the `sort` call at the
end of `loadPathAliases`). -/
def sortAliases : List PathAlias → List PathAlias
  | [] => []
  | a :: rest => insertAlias a (sortAliases rest)

/-- One entry of the `loadPathAliases` loop body: build a `PathAlias` from
one `paths` mapping entry, or skip it when the target list is empty. -/
def aliasOfEntry (resolvedBaseUrl : Chars) (entry : Chars × List Chars) :
    Option PathAlias :=
  match entry.2 with
  | [] => none
  | target :: _ =>
    if ('*' ∈ entry.1) then
      some { pattern := entry.1
             aliasPre := removeFirstStar entry.1
             targetPre := resolveP resolvedBaseUrl (removeFirstStar target) ++ [ '/' ] }
    else
      some { pattern := entry.1
             aliasPre := entry.1
             targetPre := resolveP resolvedBaseUrl target }

/-- `loadPathAliases` from `importResolver.ts`.  A `tsconfig.json` that is
absent, unreadable or unparseable is modelled as `none`; the
`catch` block then yields the empty alias list. -/
def loadPathAliases (projectRoot : Chars) (config : Option TsConfig) :
    List PathAlias :=
  match config with
  | none => []
  | some cfg =>
    let resolvedBaseUrl := resolveP projectRoot cfg.baseUrl
    sortAliases (cfg.paths.filterMap (aliasOfEntry resolvedBaseUrl))

/-- `getAliasImportPath`: first alias (in the sorted order) whose target
directory is a string prefix of the absolute target file path wins. -/
def getAliasImportPath (aliases : List PathAlias) (toFile : Chars) :
    Option Chars :=
  aliases.findSome? fun a =>
    if a.targetPre.isPrefixOf toFile then
      some (a.aliasPre ++ stripExt (toFile.drop a.targetPre.length))
    else none

/-- The relative-path fallback branch of `getRelativeImportPath`. -/
def relFallback (fromFile toFile : Chars) : Chars :=
  let rel := relativeP (dirnameP fromFile) toFile
  let stripped := stripExt rel
  if stripped.head? = some '.' then stripped else cs "./" ++ stripped

/-- `getRelativeImportPath` from `importResolver.ts`: try the alias table
when it is non-empty, else fall back to the relative path. -/
def getRelativeImportPath (aliases : List PathAlias) (fromFile toFile : Chars) :
    Chars :=
  match (if aliases.length > 0 then getAliasImportPath aliases toFile else none) with
  | some aliasPath => aliasPath
  | none => relFallback fromFile toFile

/-! ### Export index and identifier resolution (`importResolver.ts`) -/

/-- The export cache: a JS `Map` in insertion order, modelled as an
association list with unique keys maintained by `mapSet`. -/
abbrev ExportCache := List (Chars × List ExportInfo)

/-- JS `Map.prototype.set`: update the value at an existing key in place,
else append the binding at the end. -/
def mapSet (m : ExportCache) (k : Chars) (v : List ExportInfo) : ExportCache :=
  match m with
  | [] => [(k, v)]
  | (k0, v0) :: rest =>
    if k0 = k then (k0, v) :: rest else (k0, v0) :: mapSet rest k v

/-- `buildExportCache`: one pass over the globbed file list (in walk
order).  Each file is `(path, some content)` or `(path, none)` for a file
whose read throws; the per-language `parseExports` is the `parse`
parameter (the plugin dispatched on the file's extension).  A read failure
or an empty export list leaves the file out of the cache. -/
def buildExportCache {α : Type} (parse : α → Chars → List ExportInfo)
    (files : List (Chars × Option α)) : ExportCache :=
  files.foldl
    (fun cache p =>
      match p.2 with
      | none => cache
      | some content =>
        let exps := parse content p.1
        if exps.length > 0 then mapSet cache p.1 exps else cache)
    []

/-- `resolveImport` from `importResolver.ts`: scan the cache in insertion
order, skip the consuming file's own entry, and return the first export
whose name matches, with `source` overwritten by the computed specifier. -/
def resolveImport (cache : ExportCache) (aliases : List PathAlias)
    (identifier currentFile : Chars) : Option ExportInfo :=
  match cache with
  | [] => none
  | (filePath, exps) :: rest =>
    if filePath = currentFile then resolveImport rest aliases identifier currentFile
    else
      match exps.find? (fun e => e.name = identifier) with
      | some e => some { e with source := getRelativeImportPath aliases currentFile filePath }
      | none => resolveImport rest aliases identifier currentFile

/-- The resolver's instance state: the export cache and alias table. -/
structure ResolverState where
  exportCache : ExportCache
  pathAliases : List PathAlias
deriving DecidableEq, Repr

/-- `resolveImport` as a state transformer on the resolver instance: the
method reads `this.exportCache` and `this.pathAliases` and assigns to
neither, so the state it returns is the state it was given. -/
def resolveImportM (st : ResolverState) (identifier currentFile : Chars) :
    Option ExportInfo × ResolverState :=
  (resolveImport st.exportCache st.pathAliases identifier currentFile, st)

/-! ### Language parser

Modelled from the spec: the repository ships only the tests of
`src/parser/astParser.ts`; the parser itself is missing from the sources.
The definitions below follow section 4.1 of the spec: line-based
extraction of import statements, lexical detection of the two usage
shapes (tag-like use of a capitalized identifier, and a direct call of an
identifier immediately followed by an opening parenthesis, excluding
property access after a dot and a fixed denylist of keywords and ambient
globals), and the missing set as the deduplicated used identifiers not
bound by any existing import. -/

/-- Modelled from the spec: the fixed per-language denylist of reserved
words and ambient globals (`isBuiltInOrKeyword`). -/
def denylist : List Chars :=
  [cs "if", cs "else", cs "for", cs "while", cs "do", cs "switch",
   cs "case", cs "return", cs "function", cs "const", cs "let", cs "var",
   cs "new", cs "typeof", cs "instanceof", cs "try", cs "catch",
   cs "finally", cs "throw", cs "class", cs "extends", cs "super",
   cs "this", cs "import", cs "export", cs "from", cs "as", cs "async",
   cs "await", cs "in", cs "of", cs "delete", cs "void", cs "yield",
   cs "Array", cs "Object", cs "Promise", cs "Map", cs "Set",
   cs "String", cs "Number", cs "Boolean", cs "Date", cs "Math",
   cs "JSON", cs "console", cs "Error", cs "RegExp", cs "Symbol"]

/-- Modelled from the spec: `isBuiltInOrKeyword`. -/
def isBuiltInOrKeyword (n : Chars) : Bool := n ∈ denylist

/-- Take the leading maximal identifier run. -/
def takeIdent (l : Chars) : Chars := l.takeWhile identChar

/-- Modelled from the spec: the bound name of one entry of a named import
list, honouring `{a as b}` aliasing (the post-`as` name is bound). -/
def afterAs (s : Chars) : Chars :=
  match (splitCh ' ' s).filter (fun w => w ≠ []) with
  | [x] => x
  | [x, a, y] => if a = cs "as" then y else x
  | _ => trimChars s

/-- Extract the text between the first pair of matching quotes. -/
def extractQuoted (l : Chars) : Chars :=
  match l.dropWhile (fun c => ¬(c = qc ∨ c = Char.ofNat 34)) with
  | [] => []
  | q :: rest => rest.takeWhile (fun c => c ≠ q)

/-- A line whose trimmed text starts with `import ` — the notion of
"import line" used by the insertion scan in `applyFixes`. -/
def isImportLine (l : Chars) : Bool :=
  (cs "import ").isPrefixOf (trimChars l)

/-- Modelled from the spec: the bound names of a named import list,
between the braces. -/
def importNames (inner : Chars) : List Chars :=
  ((splitCh ',' inner).map (fun s => afterAs (trimChars s))).filter
    (fun n => n ≠ [])

/-- Modelled from the spec: dispatch on the text after the `import `
keyword — named imports `{a, b as c}`, namespace imports `* as X`, and
default imports `import X from '...'`. -/
def importBranch (rest src : Chars) : Option ImportStatement :=
  if rest.head? = some obr then
    some { source := src
           imports := importNames ((rest.drop 1).takeWhile (fun c => c ≠ cbr))
           isDefault := false
           isNamespace := false }
  else if (cs "* as ").isPrefixOf rest then
    some { source := src, imports := [takeIdent (rest.drop 5)],
           isDefault := false, isNamespace := true }
  else if takeIdent rest = [] then none
  else some { source := src, imports := [takeIdent rest],
              isDefault := true, isNamespace := false }

/-- Modelled from the spec: parse one line as an import declaration. -/
def parseImportLine (l : Chars) : Option ImportStatement :=
  if isImportLine l then
    importBranch (trimChars ((trimChars l).drop 7)) (extractQuoted (trimChars l))
  else none

/-- Modelled from the spec: does a finished identifier run count as a used
identifier?  `prev` is the significant character before the run, `after`
the character right after it (`none` at end of line).  Shape 1: tag-like
use of a capitalized identifier (`<Card`); shape 2: direct call
(`formatName(`), excluding property access (`obj.method(`). Runs that do
not start like an identifier, and denylisted names, never count. -/
def emits (prev : Char) (run : Chars) (after : Option Char) : List Chars :=
  match run with
  | [] => []
  | c0 :: _ =>
    if ¬(c0.isAlpha ∨ c0 = '_') then []
    else if isBuiltInOrKeyword run then []
    else if prev = '<' ∧ c0.isUpper then [run]
    else if after = some '(' ∧ prev ≠ '.' then [run]
    else []

/-- Modelled from the spec: lexical scan of one line accumulating the
current identifier run; `prev` is the last non-run character seen. -/
def scanAux (prev : Char) (run : Chars) : Chars → List Chars
  | [] => emits prev run none
  | c :: rest =>
    if identChar c then scanAux prev (run ++ [c]) rest
    else emits prev run (some c) ++ scanAux c [] rest

/-- Modelled from the spec: the used identifiers of one line. -/
def scanLine (l : Chars) : List Chars := scanAux ' ' [] l

/-- A file's text as its list of lines. -/
abbrev Content := List Chars

/-- Modelled from the spec: `findUsedIdentifiers` over the whole text. -/
def findUsedIdentifiers (content : Content) : List Chars :=
  (content.map scanLine).flatten

/-- The result triple of `AstParser.parse`. -/
structure ParseResult where
  existingImports : List ImportStatement
  usedIdentifiers : List Chars
  missingImports : List Chars
deriving DecidableEq, Repr

/-- Modelled from the spec: `AstParser.parse` — existing imports, used
identifiers, and the deduplicated missing set (used identifiers not bound
by any existing import; builtins are already excluded during the scan). -/
def parse (content : Content) : ParseResult :=
  let existingImports := content.filterMap parseImportLine
  let used := findUsedIdentifiers content
  let bound := (existingImports.map (fun s => s.imports)).flatten
  { existingImports := existingImports
    usedIdentifiers := used
    missingImports := (used.filter (fun n => decide (n ∉ bound))).dedup }

/-! ### Fix application (`autoImportCli.ts`) -/

/-- The comment-or-blank test of the insertion scan in `applyFixes`:
trimmed line starts with a line comment, a block-comment opener, a
block-comment continuation star, or is empty. -/
def isCB (l : Chars) : Bool :=
  let t := trimChars l
  (cs "//").isPrefixOf t ∨ (cs "/*").isPrefixOf t ∨ t.head? = some '*' ∨ t = []

/-- The insertion scan of `applyFixes` (regular, non-framework files):
walk the lines tracking the last import line seen (`last`, `-1` modelled
as `none`) and the line after the last comment-or-blank line (`fc`),
breaking at the first substantive non-import line while no import has
been seen yet. -/
def scanInsert : Content → Nat → Option Nat → Nat → Option Nat × Nat
  | [], _, last, fc => (last, fc)
  | l :: ls, i, last, fc =>
    if isCB l then scanInsert ls (i + 1) last (i + 1)
    else if isImportLine l then scanInsert ls (i + 1) (some i) fc
    else
      match last with
      | none => (none, fc)
      | some k => scanInsert ls (i + 1) (some k) fc

/-- The insertion index of `applyFixes`:
`lastImportLine >= 0 ? lastImportLine + 1 : firstCodeLine`. -/
def insertIndexOf (content : Content) : Nat :=
  match scanInsert content 0 none 0 with
  | (some k, _) => k + 1
  | (none, fc) => fc

/-- `lines.splice(idx, 0, ...newLines)`. -/
def spliceAt (content : Content) (idx : Nat) (newLines : Content) : Content :=
  content.take idx ++ newLines ++ content.drop idx

/-- The import statement rendered by `applyFixes`:
`import X from 'src';` for a default import, else
`import { X } from 'src';`. -/
def renderImport (identifier source : Chars) (isDefault : Bool) : Chars :=
  if isDefault then
    cs "import " ++ identifier ++ cs " from " ++ [qc] ++ source ++ [qc, ';']
  else
    cs "import " ++ [obr, ' '] ++ identifier ++ [' ', cbr] ++ cs " from "
      ++ [qc] ++ source ++ [qc, ';']

/-- The per-file body of `applyFixes` for a regular file: render each
suggested import, and when at least one exists splice the whole batch at
the computed insertion index; a file with no rendered import is not
written (`if (newImports.length === 0) continue`). -/
def applyFixesFile (content : Content) (items : List MissingImport) :
    Option Content :=
  let newImports := items.filterMap fun it =>
    it.suggestion.map fun s => renderImport it.identifier s.source s.isDefault
  if newImports = [] then none
  else some (spliceAt content (insertIndexOf content) newImports)

/-- The analysis loop body of `run` for one file: every missing import
reported by the parser, tagged with the consuming file and the resolver's
suggestion when one exists.  The parser is a parameter (`missingOf`),
matching the `this.parser.parse(...).missingImports` call. -/
def analyzeFile (missingOf : Content → List Chars) (cache : ExportCache)
    (aliases : List PathAlias) (path : Chars) (content : Content) :
    List MissingImport :=
  (missingOf content).map fun id =>
    { identifier := id
      file := path
      suggestion := (resolveImport cache aliases id path).map fun r =>
        { source := r.source, isDefault := r.isDefault } }

/-- Append a value to the entry of `k`, creating the entry at the end when
absent — the `fileMap` construction of `applyFixes` (JS `Map` grouping). -/
def mapPush (m : List (Chars × List MissingImport)) (k : Chars)
    (v : MissingImport) : List (Chars × List MissingImport) :=
  match m with
  | [] => [(k, [v])]
  | (k0, vs) :: rest =>
    if k0 = k then (k0, vs ++ [v]) :: rest else (k0, vs) :: mapPush rest k v

/-- Group the fixable missing imports by file, in first-occurrence order. -/
def groupByFile (ms : List MissingImport) : List (Chars × List MissingImport) :=
  ms.foldl (fun acc m => mapPush acc m.file m) []

/-- The `applyFixes` loop over the grouped files, with `reader` modelling
`fs.readFile` (`none` is a read that throws).  A throw aborts the loop
(there is no try/catch in `applyFixes`): the writes already performed are
kept on disk, the remaining files are never processed, and the rejection
propagates to `createCli`'s top-level handler (`process.exit(1)`),
modelled by the second component naming the file whose read failed. -/
def applyFixesLoop (reader : Chars → Option Content) :
    List (Chars × List MissingImport) → List (Chars × Content) × Option Chars
  | [] => ([], none)
  | (fp, items) :: rest =>
    match reader fp with
    | none => ([], some fp)
    | some content =>
      let step := applyFixesLoop reader rest
      match applyFixesFile content items with
      | some newContent => ((fp, newContent) :: step.1, step.2)
      | none => step

/-- Look a file's content up in the scanned file list (the re-read that
`applyFixes` performs, for the run in which no external writer interferes). -/
def lookupFile (files : List (Chars × Content)) (fp : Chars) : Option Content :=
  (files.find? (fun p => p.1 = fp)).map (fun p => p.2)

/-- The per-run report: all missing imports of all scanned files with
their resolutions (`allMissingImports` in `run`). -/
def runReport (missingOf : Content → List Chars) (cache : ExportCache)
    (aliases : List PathAlias) (files : List (Chars × Content)) :
    List MissingImport :=
  (files.map (fun f => analyzeFile missingOf cache aliases f.1 f.2)).flatten

/-- The fix phase of `run` (non-dry-run): keep the resolvable missing
entries, group them by file, and run the `applyFixes` loop on each
file back from the scanned set. -/
def runFixPhase (missingOf : Content → List Chars) (cache : ExportCache)
    (aliases : List PathAlias) (files : List (Chars × Content)) :
    List (Chars × Content) × Option Chars :=
  applyFixesLoop (lookupFile files)
    (groupByFile ((runReport missingOf cache aliases files).filter
      (fun m => m.suggestion.isSome)))

/-- The content of a file after the run: the written text when the fix
phase wrote the file, else its original content. -/
def finalContent (files : List (Chars × Content))
    (writes : List (Chars × Content)) (fp : Chars) : Option Content :=
  match writes.find? (fun w => w.1 = fp) with
  | some w => some w.2
  | none => lookupFile files fp

/-! ### General helper lemmas -/

theorem isPrefixOf_append_self (a b : Chars) : a.isPrefixOf (a ++ b) = true := by
  exact List.isPrefixOf_iff_prefix.mpr ⟨b, rfl⟩

theorem splitCh_no_sep (sep : Char) (l : Chars) (h : ∀ c ∈ l, c ≠ sep) :
    splitCh sep l = [l] := by
  induction l with
  | nil => rfl
  | cons c rest ih =>
    have hrest : splitCh sep rest = [rest] := ih (fun x hx => h x (List.mem_cons_of_mem _ hx))
    have hc : c ≠ sep := h c (List.mem_cons_self _ _)
    simp only [splitCh, List.foldr_cons] at hrest ⊢
    rw [hrest, if_neg hc]

theorem identChar_not_paren {c : Char} (h : identChar c = true) :
    c ≠ '(' ∧ c ≠ '<' := by
  constructor <;> rintro rfl <;> simp [identChar] at h

theorem identChar_not_ws {c : Char} (h : identChar c = true) :
    c.isWhitespace = false := by
  by_contra hw
  have hw' : c.isWhitespace = true := by
    cases hc : c.isWhitespace
    · exact absurd hc hw
    · rfl
  have : c = ' ' ∨ c = '\t' ∨ c = '\r' ∨ c = '\n' := by
    simp [Char.isWhitespace] at hw'
    tauto
  rcases this with rfl | rfl | rfl | rfl <;> simp [identChar] at h

/-- A nonempty list whose head and last element are not whitespace is
unchanged by `trimChars`. -/
theorem trimChars_eq_self {l : Chars} (h1 : ∀ c, l.head? = some c → c.isWhitespace = false)
    (h2 : ∀ c, l.getLast? = some c → c.isWhitespace = false) :
    trimChars l = l := by
  unfold trimChars
  have hd : l.dropWhile Char.isWhitespace = l := by
    cases l with
    | nil => rfl
    | cons a rest =>
      rw [List.dropWhile_cons, if_neg]
      simp [h1 a rfl]
  rw [hd]
  have hr : l.reverse.dropWhile Char.isWhitespace = l.reverse := by
    cases hl : l.reverse with
    | nil => rfl
    | cons a rest =>
      rw [List.dropWhile_cons, if_neg]
      have : l.getLast? = some a := by
        rw [← List.head?_reverse, hl]
        rfl
      simp [h2 a this]
  rw [hr, List.reverse_reverse]

theorem takeWhile_append_all {p : Char → Bool} {a : Chars} (b : Chars)
    (h : ∀ x ∈ a, p x = true) :
    (a ++ b).takeWhile p = a ++ b.takeWhile p := by
  induction a with
  | nil => rfl
  | cons x xs ih =>
    simp only [List.cons_append, List.takeWhile_cons,
      h x (List.mem_cons_self _ _), if_pos]
    rw [ih (fun y hy => h y (List.mem_cons_of_mem _ hy))]

theorem takeWhile_cons_neg {p : Char → Bool} {x : Char} (xs : Chars)
    (h : p x = false) : (x :: xs).takeWhile p = [] := by
  simp [List.takeWhile_cons, h]

theorem takeIdent_append {a : Chars} (b : Chars) (c : Char)
    (ha : ∀ x ∈ a, identChar x = true) (hc : identChar c = false) :
    takeIdent (a ++ c :: b) = a := by
  unfold takeIdent
  rw [takeWhile_append_all _ ha, takeWhile_cons_neg _ hc, List.append_nil]

/-- Keys of an association list. -/
def keysOf {β : Type} (m : List (Chars × β)) : List Chars := m.map Prod.fst

theorem assoc_unique {β : Type} {files : List (Chars × β)} {k : Chars} {a b : β}
    (hnd : (files.map Prod.fst).Nodup) (ha : (k, a) ∈ files) (hb : (k, b) ∈ files) :
    a = b := by
  induction files with
  | nil => cases ha
  | cons p rest ih =>
    rw [List.map_cons, List.nodup_cons] at hnd
    rcases List.mem_cons.mp ha with rfl | ha'
    · rcases List.mem_cons.mp hb with hb0 | hb'
      · exact congrArg Prod.snd hb0.symm
      · exact absurd (List.mem_map.mpr ⟨(k, b), hb', rfl⟩) hnd.1
    · rcases List.mem_cons.mp hb with rfl | hb'
      · exact absurd (List.mem_map.mpr ⟨(k, a), ha', rfl⟩) hnd.1
      · exact ih hnd.2 ha' hb'

theorem find?_key_of_mem {β : Type} {files : List (Chars × β)} {k : Chars} {v : β}
    (hnd : (files.map Prod.fst).Nodup) (hm : (k, v) ∈ files) :
    files.find? (fun p => p.1 = k) = some (k, v) := by
  induction files with
  | nil => cases hm
  | cons p rest ih =>
    rw [List.map_cons, List.nodup_cons] at hnd
    rcases List.mem_cons.mp hm with rfl | hm'
    · simp [List.find?_cons]
    · have hne : p.1 ≠ k := fun hp => hnd.1 (hp ▸ List.mem_map.mpr ⟨(k, v), hm', rfl⟩)
      rw [List.find?_cons, decide_eq_false hne]
      exact ih hnd.2 hm'

/-! ### C1: identifier resolution -/

/-- Spec-side description of the scan in section 4.4: the first index
entry, in insertion order, other than the consuming file itself, holding
an export named exactly `identifier`, paired with that export. -/
def resolveImportSpec (cache : ExportCache) (identifier currentFile : Chars) :
    Option (Chars × ExportInfo) :=
  cache.findSome? fun p =>
    if p.1 = currentFile then none
    else (p.2.find? (fun e => e.name = identifier)).map (fun e => (p.1, e))

/-- Claim C1: `resolveImport` scans the export index in insertion order,
skips the entry keyed by the consuming file, returns the first export
whose name equals the identifier with its `source` field replaced by the
computed path specifier (never the raw absolute defining-file path), and
returns `none` when no other entry exports the name. -/
theorem c1_resolve_first_match (cache : ExportCache) (aliases : List PathAlias)
    (identifier currentFile : Chars) :
    resolveImport cache aliases identifier currentFile =
      (resolveImportSpec cache identifier currentFile).map
        (fun pe => { pe.2 with
          source := getRelativeImportPath aliases currentFile pe.1 }) := by
  induction cache with
  | nil => rfl
  | cons p rest ih =>
    obtain ⟨fp, exps⟩ := p
    by_cases h : fp = currentFile
    · simp only [resolveImport, resolveImportSpec, List.findSome?_cons, if_pos h]
      exact ih
    · simp only [resolveImport, resolveImportSpec, List.findSome?_cons, if_neg h]
      cases hf : exps.find? (fun e => e.name = identifier) with
      | none => exact ih
      | some e => rfl

/-! ### C9: missing or malformed alias configuration -/

/-- Claim C9: when the alias configuration file is absent, unreadable or
unparseable (the `catch` branch of `loadPathAliases`, modelled as the
`none` configuration), the run keeps going with an empty alias table and
every specifier is computed by the relative-path fallback. -/
theorem c9_malformed_config_disables_aliases (projectRoot fromFile toFile : Chars) :
    loadPathAliases projectRoot none = [] ∧
    getRelativeImportPath (loadPathAliases projectRoot none) fromFile toFile =
      relFallback fromFile toFile := by
  exact ⟨rfl, rfl⟩

/-! ### C6: export-index invariants -/

/-- The contribution of a single file to the export cache: its full
export list when the read succeeds and at least one export is found,
nothing otherwise. -/
def cacheEntry {α : Type} (parse : α → Chars → List ExportInfo)
    (p : Chars × Option α) : Option (Chars × List ExportInfo) :=
  match p.2 with
  | none => none
  | some content =>
    let exps := parse content p.1
    if exps.length > 0 then some (p.1, exps) else none

theorem mapSet_fresh {m : ExportCache} {k : Chars} (v : List ExportInfo)
    (h : k ∉ keysOf m) : mapSet m k v = m ++ [(k, v)] := by
  induction m with
  | nil => rfl
  | cons p rest ih =>
    have hk : p.1 ≠ k := fun he => h (he ▸ List.mem_map.mpr ⟨p, List.mem_cons_self _ _, rfl⟩)
    obtain ⟨k0, v0⟩ := p
    simp only [mapSet, if_neg hk, List.cons_append, List.cons.injEq, true_and]
    exact ih (fun hm => h (List.mem_cons_of_mem _ hm))

theorem buildExportCache_go {α : Type} (parse : α → Chars → List ExportInfo) :
    ∀ (files : List (Chars × Option α)) (cache0 : ExportCache),
      (files.map Prod.fst).Nodup →
      (∀ k ∈ keysOf cache0, k ∉ files.map Prod.fst) →
      files.foldl
        (fun cache p =>
          match p.2 with
          | none => cache
          | some content =>
            let exps := parse content p.1
            if exps.length > 0 then mapSet cache p.1 exps else cache)
        cache0 = cache0 ++ files.filterMap (cacheEntry parse) := by
  intro files
  induction files with
  | nil => intro cache0 _ _; simp
  | cons p rest ih =>
    intro cache0 hnd hdisj
    rw [List.map_cons, List.nodup_cons] at hnd
    rw [List.foldl_cons]
    have hdisj' : ∀ k ∈ keysOf cache0, k ∉ rest.map Prod.fst := fun k hk hm =>
      hdisj k hk (List.mem_cons_of_mem _ hm)
    cases hc : p.2 with
    | none =>
      simp only [hc]
      rw [ih cache0 hnd.2 hdisj']
      simp [cacheEntry, hc]
    | some content =>
      simp only [hc]
      by_cases hlen : (parse content p.1).length > 0
      · rw [if_pos hlen]
        have hfresh : p.1 ∉ keysOf cache0 := fun hk => hdisj p.1 hk (List.mem_cons_self _ _)
        rw [mapSet_fresh _ hfresh]
        rw [ih (cache0 ++ [(p.1, parse content p.1)]) hnd.2 ?_]
        · simp [cacheEntry, hc, if_pos hlen]
        · intro k hk
          rcases List.mem_map.mp hk with ⟨q, hq, rfl⟩
          rcases List.mem_append.mp hq with hq0 | hq1
          · exact hdisj' q.1 (List.mem_map.mpr ⟨q, hq0, rfl⟩)
          · have : q = (p.1, parse content p.1) := by simpa using hq1
            rw [this]
            exact hnd.1
      · rw [if_neg hlen]
        rw [ih cache0 hnd.2 hdisj']
        simp [cacheEntry, hc, if_neg hlen]

/-- When the walked file list has distinct paths, the built cache is
exactly the per-file contributions, in walk order. -/
theorem buildExportCache_eq {α : Type} (parse : α → Chars → List ExportInfo)
    (files : List (Chars × Option α)) (hnd : (files.map Prod.fst).Nodup) :
    buildExportCache parse files = files.filterMap (cacheEntry parse) := by
  have := buildExportCache_go parse files [] hnd (by intro k hk; cases hk)
  simpa [buildExportCache] using this

theorem cacheEntry_some {α : Type} {parse : α → Chars → List ExportInfo}
    {p : Chars × Option α} {e : Chars × List ExportInfo}
    (h : cacheEntry parse p = some e) :
    ∃ content, p.2 = some content ∧ (parse content p.1).length > 0 ∧
      e = (p.1, parse content p.1) := by
  obtain ⟨fp, c⟩ := p
  cases c with
  | none => simp [cacheEntry] at h
  | some content =>
    simp only [cacheEntry] at h
    by_cases hlen : (parse content fp).length > 0
    · rw [if_pos hlen] at h
      cases h
      exact ⟨content, rfl, hlen, rfl⟩
    · rw [if_neg hlen] at h
      cases h

theorem cacheEntry_fst {α : Type} {parse : α → Chars → List ExportInfo}
    {p : Chars × Option α} {e : Chars × List ExportInfo}
    (h : cacheEntry parse p = some e) : e.1 = p.1 := by
  obtain ⟨content, _, _, he⟩ := cacheEntry_some h
  rw [he]

/-- Claim C6: after `buildExportCache` completes (over a file walk with
distinct paths), every path is a key at most once; every stored entry is a
non-empty export list (a file whose read throws, or that contributes zero
exports, is absent rather than stored empty or partially); and a
subsequent `resolveImport` call leaves the resolver state — in particular
the cache — unchanged. -/
theorem c6_export_index_invariants {α : Type}
    (parse : α → Chars → List ExportInfo) (files : List (Chars × Option α))
    (hnd : (files.map Prod.fst).Nodup) :
    ((buildExportCache parse files).map Prod.fst).Nodup
    ∧ (∀ e ∈ buildExportCache parse files, e.2 ≠ [])
    ∧ (∀ fp c, (fp, c) ∈ files →
        (c = none ∨ ∀ content, c = some content → parse content fp = []) →
        ∀ exps, (fp, exps) ∉ buildExportCache parse files)
    ∧ (∀ st : ResolverState, ∀ identifier currentFile,
        (resolveImportM st identifier currentFile).2 = st) := by
  rw [buildExportCache_eq parse files hnd]
  refine ⟨?_, ?_, ?_, fun st i c => rfl⟩
  · have hsub : ∀ fs : List (Chars × Option α),
        ((fs.filterMap (cacheEntry parse)).map Prod.fst).Sublist
          (fs.map Prod.fst) := by
      intro fs
      induction fs with
      | nil => exact List.Sublist.refl _
      | cons p rest ih =>
        rw [List.filterMap_cons]
        cases hc : cacheEntry parse p with
        | none =>
          rw [List.map_cons]
          exact ih.cons _
        | some e =>
          rw [List.map_cons, List.map_cons, cacheEntry_fst hc]
          exact ih.cons₂ _
    exact (hsub files).nodup hnd
  · intro e he
    rcases List.mem_filterMap.mp he with ⟨p, _, hp⟩
    obtain ⟨content, _, hlen, he2⟩ := cacheEntry_some hp
    rw [he2]
    intro hnil
    simp only [] at hnil
    rw [hnil] at hlen
    simp at hlen
  · intro fp c hmem hempty exps hbad
    rcases List.mem_filterMap.mp hbad with ⟨p, hp, hpe⟩
    obtain ⟨content, hsnd, hlen, he2⟩ := cacheEntry_some hpe
    have hfst : fp = p.1 := by
      have := congrArg Prod.fst he2
      simpa using this
    have hpfiles : (fp, p.2) ∈ files := by
      rw [hfst]
      exact hp
    have hc : c = p.2 := assoc_unique hnd hmem hpfiles
    rcases hempty with hnone | hzero
    · rw [hc, hsnd] at hnone
      cases hnone
    · have hz := hzero content (by rw [hc, hsnd])
      rw [← hfst] at hlen
      rw [hz] at hlen
      simp at hlen

/-- The single export of the readable file in the C6 witness walk. -/
def c6export : ExportInfo :=
  { name := cs "calculateSum", source := cs "/p/a.ts", isDefault := false }

/-- A concrete file walk for exercising the index build: one file with
one export, one file whose read throws, one file with zero exports. -/
def c6files : List (Chars × Option (List ExportInfo)) :=
  [(cs "/p/a.ts", some [c6export]),
   (cs "/p/b.ts", none),
   (cs "/p/c.ts", some [])]

/-- The trivial per-file export parser used with `c6files`: the modelled
content of a file is its export list. -/
def c6parse : List ExportInfo → Chars → List ExportInfo := fun exps _ => exps

/-- Witness for C6 at a concrete walk: the built index has distinct keys,
and neither the unreadable file nor the zero-export file appears in it. -/
theorem c6_witness :
    ((buildExportCache c6parse c6files).map Prod.fst).Nodup
    ∧ (cs "/p/b.ts", [c6export]) ∉ buildExportCache c6parse c6files
    ∧ (cs "/p/c.ts", ([] : List ExportInfo)) ∉ buildExportCache c6parse c6files := by
  have h := c6_export_index_invariants c6parse c6files (by decide)
  exact ⟨h.1,
    h.2.2.1 (cs "/p/b.ts") none (by decide) (Or.inl rfl) _,
    h.2.2.1 (cs "/p/c.ts") (some []) (by decide)
      (Or.inr (fun c hc => by cases hc; rfl)) _⟩

/-! ### C4: alias precedence -/

/-- The ordering maintained by the alias sort: descending length of the
alias prefix (the non-wildcard part of the alias pattern). -/
def aliasGE (x y : PathAlias) : Prop := y.aliasPre.length ≤ x.aliasPre.length

theorem mem_insertAlias {x a : PathAlias} {l : List PathAlias} :
    x ∈ insertAlias a l ↔ x = a ∨ x ∈ l := by
  induction l with
  | nil => simp [insertAlias]
  | cons b bs ih =>
    by_cases h : b.aliasPre.length ≤ a.aliasPre.length
    · simp [insertAlias, if_pos h, List.mem_cons]
    · simp only [insertAlias, if_neg h, List.mem_cons, ih]
      tauto

theorem pairwise_insertAlias {a : PathAlias} {l : List PathAlias}
    (h : l.Pairwise aliasGE) : (insertAlias a l).Pairwise aliasGE := by
  induction l with
  | nil => exact List.pairwise_cons.mpr ⟨(fun x hx => by cases hx), List.Pairwise.nil⟩
  | cons b bs ih =>
    rcases List.pairwise_cons.mp h with ⟨hb, hbs⟩
    by_cases hc : b.aliasPre.length ≤ a.aliasPre.length
    · rw [insertAlias, if_pos hc]
      refine List.pairwise_cons.mpr ⟨?_, h⟩
      intro x hx
      rcases List.mem_cons.mp hx with rfl | hx'
      · exact hc
      · exact le_trans (hb x hx') hc
    · rw [insertAlias, if_neg hc]
      refine List.pairwise_cons.mpr ⟨?_, ih hbs⟩
      intro x hx
      rcases mem_insertAlias.mp hx with rfl | hx'
      · exact le_of_lt (lt_of_not_le hc)
      · exact hb x hx'

theorem pairwise_sortAliases (l : List PathAlias) :
    (sortAliases l).Pairwise aliasGE := by
  induction l with
  | nil => exact List.Pairwise.nil
  | cons a rest ih => exact pairwise_insertAlias ih

theorem mem_sortAliases {x : PathAlias} {l : List PathAlias} :
    x ∈ sortAliases l ↔ x ∈ l := by
  induction l with
  | nil => simp [sortAliases]
  | cons a rest ih =>
    simp only [sortAliases, mem_insertAlias, List.mem_cons, ih]

/-- `findSome?` over a list sorted by descending alias-prefix length
returns a hit whose alias prefix is maximal among all hits. -/
theorem findSome?_pairwise_best {F : PathAlias → Option Chars} {l : List PathAlias}
    {res : Chars} (hp : l.Pairwise aliasGE) (h : l.findSome? F = some res) :
    ∃ a ∈ l, F a = some res ∧
      ∀ b ∈ l, (F b).isSome = true → b.aliasPre.length ≤ a.aliasPre.length := by
  induction l with
  | nil => cases h
  | cons x xs ih =>
    rcases List.pairwise_cons.mp hp with ⟨hx, hxs⟩
    rw [List.findSome?_cons] at h
    cases hfx : F x with
    | some r =>
      rw [hfx] at h
      cases h
      refine ⟨x, List.mem_cons_self _ _, hfx, ?_⟩
      intro b hb _
      rcases List.mem_cons.mp hb with rfl | hb'
      · exact le_refl _
      · exact hx b hb'
    | none =>
      rw [hfx] at h
      obtain ⟨a, ha, hfa, hbest⟩ := ih hxs h
      refine ⟨a, List.mem_cons_of_mem _ ha, hfa, ?_⟩
      intro b hb hbs
      rcases List.mem_cons.mp hb with rfl | hb'
      · rw [hfx] at hbs
        cases hbs
      · exact hbest b hb' hbs

/-- Amended claim C4: when the resolver's alias table (as loaded and
sorted by `loadPathAliases`) produces a specifier for a target file, the
alias used is one whose target directory is a prefix of the target path
and whose alias prefix (the non-wildcard part of the alias pattern) has
maximal length among all matching aliases; the longest alias prefix wins,
not the longest target directory. -/
theorem c4_longest_alias_prefix_wins (projectRoot : Chars) (cfg : TsConfig)
    (toFile res : Chars)
    (h : getAliasImportPath (loadPathAliases projectRoot (some cfg)) toFile
      = some res) :
    ∃ a ∈ loadPathAliases projectRoot (some cfg),
      a.targetPre.isPrefixOf toFile = true ∧
      res = a.aliasPre ++ stripExt (toFile.drop a.targetPre.length) ∧
      ∀ b ∈ loadPathAliases projectRoot (some cfg),
        b.targetPre.isPrefixOf toFile = true →
        b.aliasPre.length ≤ a.aliasPre.length := by
  have hp : (loadPathAliases projectRoot (some cfg)).Pairwise aliasGE :=
    pairwise_sortAliases _
  obtain ⟨a, ha, hfa, hbest⟩ := findSome?_pairwise_best hp h
  by_cases hm : a.targetPre.isPrefixOf toFile
  · refine ⟨a, ha, hm, ?_, ?_⟩
    · rw [if_pos hm] at hfa
      cases hfa
      rfl
    · intro b hb hbm
      exact hbest b hb (by rw [if_pos hbm]; rfl)
  · rw [if_neg hm] at hfa
    cases hfa

/-- The alias configuration of the C4 counterexample: the alias with the
shorter target directory has the longer alias prefix. -/
def c4cfg : TsConfig :=
  { baseUrl := cs "."
    paths := [(cs "@source/*", [cs "src/*"]),
              (cs "@c/*", [cs "src/components/*"])] }

/-- Counterexample to C4 as stated: both configured target directories
are prefixes of the file path and `src/components/` is the strictly
longer one, yet the resolver emits the specifier of the `src/` alias
(whose alias prefix `@source/` is longer), not `@c/Button`. -/
theorem c4_counterexample :
    getRelativeImportPath (loadPathAliases (cs "/proj") (some c4cfg))
        (cs "/proj/src/pages/Home.ts") (cs "/proj/src/components/Button.ts")
      = cs "@source/components/Button"
    ∧ (cs "/proj/src/components/").isPrefixOf
        (cs "/proj/src/components/Button.ts") = true
    ∧ (cs "/proj/src/").isPrefixOf (cs "/proj/src/components/Button.ts") = true
    ∧ (cs "/proj/src/").length < (cs "/proj/src/components/").length
    ∧ (loadPathAliases (cs "/proj") (some c4cfg)).map
        (fun a => (a.aliasPre, a.targetPre))
      = [(cs "@source/", cs "/proj/src/"), (cs "@c/", cs "/proj/src/components/")]
    ∧ cs "@source/components/Button" ≠
        cs "@c/" ++ stripExt ((cs "/proj/src/components/Button.ts").drop
          (cs "/proj/src/components/").length) := by
  refine ⟨by decide, by decide, by decide, by decide, by decide, by decide⟩

/-- Witness for the amended C4 theorem at the counterexample input. -/
theorem c4_witness :
    ∃ a ∈ loadPathAliases (cs "/proj") (some c4cfg),
      a.targetPre.isPrefixOf (cs "/proj/src/components/Button.ts") = true ∧
      cs "@source/components/Button"
        = a.aliasPre ++ stripExt ((cs "/proj/src/components/Button.ts").drop
            a.targetPre.length) ∧
      ∀ b ∈ loadPathAliases (cs "/proj") (some c4cfg),
        b.targetPre.isPrefixOf (cs "/proj/src/components/Button.ts") = true →
        b.aliasPre.length ≤ a.aliasPre.length :=
  c4_longest_alias_prefix_wins (cs "/proj") c4cfg
    (cs "/proj/src/components/Button.ts") (cs "@source/components/Button")
    (by decide)

/-! ### C5: relative-path fallback and extension stripping -/

theorem dropRightN_suffix {s e : Chars} (h : e <:+ s) :
    dropRightN s e.length ++ e = s := by
  obtain ⟨t, rfl⟩ := h
  unfold dropRightN
  rw [List.length_append, Nat.add_sub_cancel, List.take_left]

theorem stripExt_branch {s e : Chars} (n : Nat) (hlen : e.length = n)
    (h : e.isSuffixOf s = true) : dropRightN s n ++ e = s := by
  rw [← hlen]
  exact dropRightN_suffix (List.isSuffixOf_iff_suffix.mp h)

/-- Extension stripping removes exactly one recognized source-extension
suffix when there is one, and is the identity otherwise. -/
theorem stripExt_spec (s : Chars) :
    stripExt s = s ∨
    ∃ e ∈ recognizedExts, e.isSuffixOf s = true ∧ stripExt s ++ e = s := by
  unfold stripExt
  by_cases h1 : (cs ".tsx").isSuffixOf s = true
  · rw [if_pos h1]
    exact Or.inr ⟨cs ".tsx", by simp [recognizedExts], h1, stripExt_branch 4 rfl h1⟩
  · rw [if_neg h1]
    by_cases h2 : (cs ".jsx").isSuffixOf s = true
    · rw [if_pos h2]
      exact Or.inr ⟨cs ".jsx", by simp [recognizedExts], h2, stripExt_branch 4 rfl h2⟩
    · rw [if_neg h2]
      by_cases h3 : (cs ".ts").isSuffixOf s = true
      · rw [if_pos h3]
        exact Or.inr ⟨cs ".ts", by simp [recognizedExts], h3, stripExt_branch 3 rfl h3⟩
      · rw [if_neg h3]
        by_cases h4 : (cs ".js").isSuffixOf s = true
        · rw [if_pos h4]
          exact Or.inr ⟨cs ".js", by simp [recognizedExts], h4, stripExt_branch 3 rfl h4⟩
        · rw [if_neg h4]
          by_cases h5 : (cs ".py").isSuffixOf s = true
          · rw [if_pos h5]
            exact Or.inr ⟨cs ".py", by simp [recognizedExts], h5, stripExt_branch 3 rfl h5⟩
          · rw [if_neg h5]
            exact Or.inl rfl

/-- A string ending in no recognized extension is never stripped: an
arbitrary trailing dot-segment is left alone. -/
theorem stripExt_no_ext {s : Chars}
    (h : ∀ e ∈ recognizedExts, e.isSuffixOf s = false) : stripExt s = s := by
  have h1 := h (cs ".tsx") (by simp [recognizedExts])
  have h2 := h (cs ".jsx") (by simp [recognizedExts])
  have h3 := h (cs ".ts") (by simp [recognizedExts])
  have h4 := h (cs ".js") (by simp [recognizedExts])
  have h5 := h (cs ".py") (by simp [recognizedExts])
  unfold stripExt
  rw [if_neg (by simp [h1]), if_neg (by simp [h2]), if_neg (by simp [h3]),
    if_neg (by simp [h4]), if_neg (by simp [h5])]

/-- Claim C5: with no applicable alias, the specifier is the relative
path from the consuming file's directory to the defining file with a
recognized source-extension suffix stripped (and only such a suffix:
second and third conjuncts), prefixed with `./` exactly when the relative
path does not already start with a dot. -/
theorem c5_relative_specifier (fromFile toFile : Chars) :
    (stripExt (relativeP (dirnameP fromFile) toFile) ≠ [] →
      getRelativeImportPath [] fromFile toFile =
        (if (relativeP (dirnameP fromFile) toFile).head? = some '.'
         then stripExt (relativeP (dirnameP fromFile) toFile)
         else cs "./" ++ stripExt (relativeP (dirnameP fromFile) toFile)))
    ∧ (∀ s, stripExt s = s ∨
        ∃ e ∈ recognizedExts, e.isSuffixOf s = true ∧ stripExt s ++ e = s)
    ∧ (∀ s, (∀ e ∈ recognizedExts, e.isSuffixOf s = false) → stripExt s = s) := by
  refine ⟨?_, fun s => stripExt_spec s, fun s hs => stripExt_no_ext hs⟩
  intro hne
  show relFallback fromFile toFile = _
  have hheads : (stripExt (relativeP (dirnameP fromFile) toFile)).head?
      = (relativeP (dirnameP fromFile) toFile).head? := by
    rcases stripExt_spec (relativeP (dirnameP fromFile) toFile) with hid | ⟨e, _, _, hsplit⟩
    · rw [hid]
    · conv_rhs => rw [← hsplit]
      rw [List.head?_append]
      cases hh : (stripExt (relativeP (dirnameP fromFile) toFile)).head? with
      | none => exact absurd (List.head?_eq_none_iff.mp hh) hne
      | some c => rfl
  simp only [relFallback]
  rw [hheads]

/-- Witness for C5: a cross-directory pair, plus a non-extension trailing
dot-segment that stripping leaves untouched. -/
theorem c5_witness :
    getRelativeImportPath [] (cs "/p/a/App.tsx") (cs "/p/b/utils.ts")
      = (if (relativeP (dirnameP (cs "/p/a/App.tsx")) (cs "/p/b/utils.ts")).head?
            = some '.'
         then stripExt (relativeP (dirnameP (cs "/p/a/App.tsx")) (cs "/p/b/utils.ts"))
         else cs "./" ++ stripExt (relativeP (dirnameP (cs "/p/a/App.tsx"))
            (cs "/p/b/utils.ts")))
    ∧ stripExt (cs "style.module") = cs "style.module" :=
  ⟨(c5_relative_specifier (cs "/p/a/App.tsx") (cs "/p/b/utils.ts")).1 (by decide),
   (c5_relative_specifier (cs "/p/a/App.tsx") (cs "/p/b/utils.ts")).2.2
     (cs "style.module") (by decide)⟩

/-! ### C7: insertion point -/

/-- Index of the last element satisfying `p`, if any. -/
def lastIdxP (p : Chars → Bool) : Content → Option Nat
  | [] => none
  | a :: l =>
    match lastIdxP p l with
    | some j => some (j + 1)
    | none => if p a then some 0 else none

theorem lastIdxP_cons_neg {p : Chars → Bool} {a : Chars} (l : Content)
    (h : p a = false) :
    lastIdxP p (a :: l) = (lastIdxP p l).map (· + 1) := by
  cases hl : lastIdxP p l <;> simp [lastIdxP, hl, h]

theorem lastIdxP_cons_pos {p : Chars → Bool} {a : Chars} (l : Content)
    (h : p a = true) :
    lastIdxP p (a :: l) =
      some (match lastIdxP p l with | some j => j + 1 | none => 0) := by
  cases hl : lastIdxP p l <;> simp [lastIdxP, hl, h]

theorem lastIdxP_eq_none {p : Chars → Bool} {l : Content}
    (h : ∀ x ∈ l, p x = false) : lastIdxP p l = none := by
  induction l with
  | nil => rfl
  | cons a l ih =>
    rw [lastIdxP_cons_neg l (h a (List.mem_cons_self _ _))]
    rw [ih (fun x hx => h x (List.mem_cons_of_mem _ hx))]
    rfl

theorem lastIdxP_ne_none {p : Chars → Bool} {l : Content} {a : Chars}
    (ha : a ∈ l) (hp : p a = true) : lastIdxP p l ≠ none := by
  induction l with
  | nil => cases ha
  | cons b l ih =>
    rcases List.mem_cons.mp ha with rfl | ha'
    · cases hl : lastIdxP p l <;> simp [lastIdxP, hl, hp]
    · cases hl : lastIdxP p l with
      | some j => simp [lastIdxP, hl]
      | none => exact absurd hl (ih ha')

theorem lastIdxP_append_no_right {p : Chars → Bool} {a b : Content}
    (h : ∀ x ∈ b, p x = false) : lastIdxP p (a ++ b) = lastIdxP p a := by
  induction a with
  | nil => simpa using lastIdxP_eq_none h
  | cons x xs ih =>
    by_cases hx : p x = true
    · rw [List.cons_append, lastIdxP_cons_pos _ hx, lastIdxP_cons_pos _ hx, ih]
    · have hx' : p x = false := by
        cases hpx : p x
        · rfl
        · exact absurd hpx hx
      rw [List.cons_append, lastIdxP_cons_neg _ hx', lastIdxP_cons_neg _ hx', ih]

theorem lastIdxP_all_true {p : Chars → Bool} {l : Content} (hne : l ≠ [])
    (h : ∀ x ∈ l, p x = true) : lastIdxP p l = some (l.length - 1) := by
  induction l with
  | nil => exact absurd rfl hne
  | cons a l ih =>
    cases l with
    | nil => simp [lastIdxP, h a (List.mem_cons_self _ _)]
    | cons b l' =>
      rw [lastIdxP_cons_pos _ (h a (List.mem_cons_self _ _))]
      rw [ih (by simp) (fun x hx => h x (List.mem_cons_of_mem _ hx))]
      simp

theorem head?_of_isPrefixOf (p : Char) (ps : Chars) {m : Chars}
    (h : (p :: ps).isPrefixOf m = true) : m.head? = some p := by
  obtain ⟨t, ht⟩ := List.isPrefixOf_iff_prefix.mp h
  rw [← ht]
  rfl

/-- A line counted as comment-or-blank by the insertion scan is never
an import line. -/
theorem isCB_not_import {l : Chars} (h : isCB l = true) :
    isImportLine l = false := by
  cases him : isImportLine l with
  | false => rfl
  | true =>
    exfalso
    have hhead : (trimChars l).head? = some 'i' :=
      head?_of_isPrefixOf 'i' (cs "mport ") him
    have h' := of_decide_eq_true h
    rcases h' with h1 | h2 | h3 | h4
    · have := head?_of_isPrefixOf '/' (cs "/") h1
      rw [hhead] at this
      simp at this
    · have := head?_of_isPrefixOf '/' (cs "*") h2
      rw [hhead] at this
      simp at this
    · rw [hhead] at h3
      simp at h3
    · rw [h4] at hhead
      simp at hhead

theorem isImport_not_CB {l : Chars} (h : isImportLine l = true) :
    isCB l = false := by
  cases hcb : isCB l with
  | false => rfl
  | true => rw [isCB_not_import hcb] at h; cases h

/-- Once an import line has been seen, the scan never breaks and tracks
the last import line of the remaining lines. -/
theorem scanInsert_some_fst :
    ∀ (ls : Content) (i k fc : Nat),
      (scanInsert ls i (some k) fc).1 =
        some (match lastIdxP isImportLine ls with
              | some j => i + j
              | none => k) := by
  intro ls
  induction ls with
  | nil => intro i k fc; rfl
  | cons l ls ih =>
    intro i k fc
    by_cases hcb : isCB l = true
    · rw [show scanInsert (l :: ls) i (some k) fc
          = scanInsert ls (i + 1) (some k) (i + 1) from by
            simp [scanInsert, hcb]]
      rw [ih, lastIdxP_cons_neg _ (isCB_not_import hcb)]
      cases hL : lastIdxP isImportLine ls with
        | none => simp
        | some j =>
          show some (i + 1 + j) = some (i + (j + 1))
          refine congrArg some ?_
          omega
    · by_cases him : isImportLine l = true
      · rw [show scanInsert (l :: ls) i (some k) fc
            = scanInsert ls (i + 1) (some i) fc from by
              simp [scanInsert, hcb, him]]
        rw [ih, lastIdxP_cons_pos _ him]
        cases hL : lastIdxP isImportLine ls with
        | none => simp
        | some j =>
          show some (i + 1 + j) = some (i + (j + 1))
          refine congrArg some ?_
          omega
      · rw [show scanInsert (l :: ls) i (some k) fc
            = scanInsert ls (i + 1) (some k) fc from by
              simp [scanInsert, hcb, him]]
        rw [ih, lastIdxP_cons_neg _ (by simpa using him)]
        cases hL : lastIdxP isImportLine ls with
        | none => simp
        | some j =>
          show some (i + 1 + j) = some (i + (j + 1))
          refine congrArg some ?_
          omega

/-- From the initial state, when the first substantive line of the file
is an import line, the scan's last-import component is the absolute index
of the file's last import line. -/
theorem scanInsert_none_fst_import :
    ∀ (ls : Content) (i : Nat) (fl : Chars),
      (ls.dropWhile isCB).head? = some fl → isImportLine fl = true →
      (scanInsert ls i none i).1 =
        (lastIdxP isImportLine ls).map (fun j => i + j) := by
  intro ls
  induction ls with
  | nil => intro i fl hH; cases hH
  | cons l ls ih =>
    intro i fl hH him
    by_cases hcb : isCB l = true
    · rw [List.dropWhile_cons, if_pos hcb] at hH
      rw [show scanInsert (l :: ls) i none i
          = scanInsert ls (i + 1) none (i + 1) from by
            simp [scanInsert, hcb]]
      rw [ih (i + 1) fl hH him, lastIdxP_cons_neg _ (isCB_not_import hcb)]
      cases hL : lastIdxP isImportLine ls with
      | none => rfl
      | some j =>
        show some (i + 1 + j) = some (i + (j + 1))
        refine congrArg some ?_
        omega
    · rw [List.dropWhile_cons, if_neg hcb] at hH
      have hfl : fl = l := by
        have : some l = some fl := by rw [← hH]; rfl
        exact (Option.some.injEq _ _ ▸ this).symm
      rw [hfl] at him
      rw [show scanInsert (l :: ls) i none i
          = scanInsert ls (i + 1) (some i) i from by
            simp [scanInsert, hcb, him]]
      rw [scanInsert_some_fst, lastIdxP_cons_pos _ him]
      cases hL : lastIdxP isImportLine ls with
      | none => show some i = some (i + 0); simp
      | some j =>
        show some (i + 1 + j) = some (i + (j + 1))
        refine congrArg some ?_
        omega

/-- From the initial state, when the first substantive line is not
an import line (or there is none), the scan records no import line. -/
theorem scanInsert_none_fst_noimport :
    ∀ (ls : Content) (i : Nat),
      (∀ fl, (ls.dropWhile isCB).head? = some fl → isImportLine fl = false) →
      (scanInsert ls i none i).1 = none := by
  intro ls
  induction ls with
  | nil => intro i _; rfl
  | cons l ls ih =>
    intro i h
    by_cases hcb : isCB l = true
    · rw [show scanInsert (l :: ls) i none i
          = scanInsert ls (i + 1) none (i + 1) from by
            simp [scanInsert, hcb]]
      exact ih (i + 1) (fun fl hfl => h fl (by
        rwa [List.dropWhile_cons, if_pos hcb]))
    · have hH : ((l :: ls).dropWhile isCB).head? = some l := by
        rw [List.dropWhile_cons, if_neg hcb]
        rfl
      have him := h l hH
      rw [show scanInsert (l :: ls) i none i = (none, i) from by
          simp [scanInsert, hcb, him]]

/-- The scan's fallback component, when the file's first substantive line
is not an import: the length of the leading comment-or-blank block. -/
theorem scanInsert_none_snd :
    ∀ (ls : Content) (i : Nat),
      (∀ fl, (ls.dropWhile isCB).head? = some fl → isImportLine fl = false) →
      (scanInsert ls i none i).2 = i + (ls.takeWhile isCB).length := by
  intro ls
  induction ls with
  | nil => intro i _; rfl
  | cons l ls ih =>
    intro i h
    by_cases hcb : isCB l = true
    · rw [show scanInsert (l :: ls) i none i
          = scanInsert ls (i + 1) none (i + 1) from by
            simp [scanInsert, hcb]]
      rw [ih (i + 1) (fun fl hfl => h fl (by
        rwa [List.dropWhile_cons, if_pos hcb]))]
      rw [List.takeWhile_cons, if_pos hcb]
      simp
      omega
    · have hH : ((l :: ls).dropWhile isCB).head? = some l := by
        rw [List.dropWhile_cons, if_neg hcb]
        rfl
      have him := h l hH
      rw [show scanInsert (l :: ls) i none i = (none, i) from by
          simp [scanInsert, hcb, him]]
      rw [List.takeWhile_cons, if_neg hcb]
      rfl

theorem insertIndexOf_eq (c : Content) :
    insertIndexOf c =
      (match (scanInsert c 0 none 0).1 with
       | some k => k + 1
       | none => (scanInsert c 0 none 0).2) := by
  unfold insertIndexOf
  rcases hs : scanInsert c 0 none 0 with ⟨last, fc⟩
  cases last <;> rfl

theorem parseImportLine_eq_none {l : Chars} (h : isImportLine l = false) :
    parseImportLine l = none := by
  simp [parseImportLine, h]

theorem filterMap_parseImportLine_nil {body : Content}
    (h : ∀ l ∈ body, isImportLine l = false) :
    body.filterMap parseImportLine = [] := by
  induction body with
  | nil => rfl
  | cons l ls ih =>
    rw [List.filterMap_cons, parseImportLine_eq_none (h l (List.mem_cons_self _ _))]
    exact ih (fun x hx => h x (List.mem_cons_of_mem _ hx))

theorem insertIndexOf_after_last_import (content : Content) (fl : Chars)
    (hH : (content.dropWhile isCB).head? = some fl)
    (him : isImportLine fl = true) :
    ∃ k, lastIdxP isImportLine content = some k ∧
      insertIndexOf content = k + 1 := by
  have hmem : fl ∈ content := by
    refine List.IsSuffix.mem ?_ (List.dropWhile_suffix isCB)
    exact List.mem_of_mem_head? (by rw [hH]; exact rfl)
  obtain ⟨k, hk⟩ := Option.ne_none_iff_exists'.mp (lastIdxP_ne_none hmem him)
  refine ⟨k, hk, ?_⟩
  rw [insertIndexOf_eq, scanInsert_none_fst_import content 0 fl hH him, hk]
  show 0 + k + 1 = k + 1
  omega

theorem insertIndexOf_no_import (content : Content)
    (h : ∀ fl, (content.dropWhile isCB).head? = some fl →
      isImportLine fl = false) :
    insertIndexOf content = (content.takeWhile isCB).length := by
  rw [insertIndexOf_eq, scanInsert_none_fst_noimport content 0 h]
  show (scanInsert content 0 none 0).2 = _
  rw [scanInsert_none_snd content 0 h]
  omega

/-- Amended claim C7: new imports are inserted immediately after the
last import line of the file when the first substantive (non-blank,
non-comment) line is an import line; otherwise — even when import lines
occur later, after code — they are inserted at the end of the leading
blank-or-comment block (line 0 when there is none).  In particular, for a
file whose only content above the imports `I1..In` is the imports
themselves, a new import is spliced immediately after `In`, the original
lines are unchanged in content and order, and re-parsing yields the
original import statements followed by exactly the new one. -/
theorem c7_insertion_point (content impLines body : Content)
    (newLine : Chars) (stmt : ImportStatement) :
    (∀ fl, (content.dropWhile isCB).head? = some fl → isImportLine fl = true →
      ∃ k, lastIdxP isImportLine content = some k ∧
        insertIndexOf content = k + 1)
    ∧ ((∀ fl, (content.dropWhile isCB).head? = some fl →
        isImportLine fl = false) →
      insertIndexOf content = (content.takeWhile isCB).length)
    ∧ (impLines ≠ [] →
       (∀ l ∈ impLines, isImportLine l = true) →
       (∀ l ∈ body, isImportLine l = false) →
       parseImportLine newLine = some stmt →
       insertIndexOf (impLines ++ body) = impLines.length
       ∧ spliceAt (impLines ++ body) (insertIndexOf (impLines ++ body)) [newLine]
           = impLines ++ newLine :: body
       ∧ (impLines ++ newLine :: body).filterMap parseImportLine
           = (impLines ++ body).filterMap parseImportLine ++ [stmt]) := by
  refine ⟨fun fl hH him => insertIndexOf_after_last_import content fl hH him,
    fun h => insertIndexOf_no_import content h, ?_⟩
  intro hne himp hbody hstmt
  have hidx : insertIndexOf (impLines ++ body) = impLines.length := by
    cases himps : impLines with
    | nil => exact absurd himps hne
    | cons l0 rest =>
      have hl0 : isImportLine l0 = true := by
        rw [himps] at himp
        exact himp l0 (List.mem_cons_self _ _)
      have hH : ((impLines ++ body).dropWhile isCB).head? = some l0 := by
        rw [himps, List.cons_append, List.dropWhile_cons,
          if_neg (by simp [isImport_not_CB hl0])]
        rfl
      obtain ⟨k, hk, hins⟩ :=
        insertIndexOf_after_last_import (impLines ++ body) l0 hH hl0
      have hlast : lastIdxP isImportLine (impLines ++ body)
          = some (impLines.length - 1) := by
        rw [lastIdxP_append_no_right hbody]
        exact lastIdxP_all_true hne himp
      rw [hlast] at hk
      have hkval : k = impLines.length - 1 := (Option.some.inj hk).symm
      have hlen : impLines.length = rest.length + 1 := by rw [himps]; rfl
      rw [← himps, hins, hkval]
      omega
  refine ⟨hidx, ?_, ?_⟩
  · rw [hidx]
    unfold spliceAt
    rw [List.take_left, List.drop_left]
    simp
  · rw [List.filterMap_append, List.filterMap_append, List.filterMap_cons,
      hstmt, filterMap_parseImportLine_nil hbody]
    simp

/-- A well-formed import line used by the C7 counterexample and witness. -/
def c7importLine : Chars :=
  cs "import \x7b a \x7d from " ++ [qc] ++ cs "./a" ++ [qc, ';']

/-- A file whose first substantive line is code, with an import line
after it. -/
def c7content : Content := [cs "const x = 1;", c7importLine]

/-- Counterexample to C7 as stated: this file has an import line (its
last one is at index 1), yet the insertion index is 0 — the scan breaks
at the first substantive non-import line, so the new import is *not*
placed immediately after the last existing import line (index 2). -/
theorem c7_counterexample :
    lastIdxP isImportLine c7content = some 1
    ∧ insertIndexOf c7content = 0
    ∧ (0 : Nat) ≠ 1 + 1 := by
  refine ⟨by decide, by decide, by decide⟩

/-- Witness for the amended C7 theorem: an import-first file, a file with
only comment and code lines, and a concrete round trip. -/
theorem c7_witness :
    (∃ k, lastIdxP isImportLine [c7importLine, cs "const x = 1;"] = some k ∧
      insertIndexOf [c7importLine, cs "const x = 1;"] = k + 1)
    ∧ insertIndexOf [cs "// c", cs "const x = 1;"]
        = (([cs "// c", cs "const x = 1;"] : Content).takeWhile isCB).length
    ∧ (insertIndexOf ([c7importLine] ++ [cs "const x = 1;"]) = 1
       ∧ spliceAt ([c7importLine] ++ [cs "const x = 1;"])
           (insertIndexOf ([c7importLine] ++ [cs "const x = 1;"]))
           [renderImport (cs "Card") (cs "./Card") false]
         = [c7importLine] ++ renderImport (cs "Card") (cs "./Card") false
             :: [cs "const x = 1;"]
       ∧ ([c7importLine] ++ renderImport (cs "Card") (cs "./Card") false
             :: [cs "const x = 1;"]).filterMap parseImportLine
         = ([c7importLine] ++ [cs "const x = 1;"]).filterMap parseImportLine
             ++ [{ source := cs "./Card", imports := [cs "Card"],
                   isDefault := false, isNamespace := false }]) := by
  refine ⟨?_, ?_, ?_⟩
  · exact (c7_insertion_point [c7importLine, cs "const x = 1;"] [] [] []
      { source := [], imports := [], isDefault := false, isNamespace := false }).1
      c7importLine (by decide) (by decide)
  · refine (c7_insertion_point [cs "// c", cs "const x = 1;"] [] [] []
      { source := [], imports := [], isDefault := false, isNamespace := false }).2.1 ?_
    intro fl h
    rw [show (([cs "// c", cs "const x = 1;"] : Content).dropWhile isCB).head?
        = some (cs "const x = 1;") from by decide] at h
    injection h with h2
    rw [← h2]
    decide
  · have h := (c7_insertion_point [] [c7importLine] [cs "const x = 1;"]
      (renderImport (cs "Card") (cs "./Card") false)
      { source := cs "./Card", imports := [cs "Card"],
        isDefault := false, isNamespace := false }).2.2
      (by decide) (by decide) (by decide) (by decide)
    exact ⟨h.1, h.2.1, h.2.2⟩

/-! ### C3: read failure during fix application -/

/-- Amended claim C3: `applyFixes` has no per-file recovery.  When the
read of one grouped file throws, the writes already performed for the
files before it remain in effect, but that file *and every file after it*
are skipped, and the rejection propagates out of `applyFixes` to the
top-level `createCli` handler (`process.exit(1)`) — the failure aborts
the run instead of being recorded as a per-file failure. -/
theorem c3_read_failure_aborts (reader : Chars → Option Content)
    (pre : List (Chars × List MissingImport)) (f : Chars)
    (items : List MissingImport) (post : List (Chars × List MissingImport))
    (hpre : ∀ q ∈ pre, (reader q.1).isSome = true) (hf : reader f = none) :
    applyFixesLoop reader (pre ++ (f, items) :: post)
      = ((applyFixesLoop reader pre).1, some f) := by
  induction pre with
  | nil =>
    rw [List.nil_append]
    show applyFixesLoop reader ((f, items) :: post) = _
    unfold applyFixesLoop
    rw [hf]
  | cons q pre' ih =>
    obtain ⟨qf, qitems⟩ := q
    have hq : (reader qf).isSome = true :=
      hpre (qf, qitems) (List.mem_cons_self _ _)
    obtain ⟨c, hc⟩ := Option.isSome_iff_exists.mp hq
    have ih' := ih (fun x hx => hpre x (List.mem_cons_of_mem _ hx))
    rw [List.cons_append]
    show applyFixesLoop reader ((qf, qitems) :: (pre' ++ (f, items) :: post)) = _
    unfold applyFixesLoop
    rw [hc, ih']
    dsimp only
    cases applyFixesFile c qitems <;> rfl

/-- The reader of the C3 counterexample run: the middle file's read
throws, the other two succeed. -/
def c3reader : Chars → Option Content :=
  fun fp => if fp = cs "/p/b.ts" then none else some [cs "const z = 1;"]

/-- One resolvable fix for a given file. -/
def c3fix (fp : Chars) : Chars × List MissingImport :=
  (fp, [{ identifier := cs "Card", file := fp,
          suggestion := some { source := cs "./Card", isDefault := false } }])

/-- The grouped fix list of the C3 counterexample: three files, each with
a resolvable fix. -/
def c3fixes : List (Chars × List MissingImport) :=
  [c3fix (cs "/p/a.ts"), c3fix (cs "/p/b.ts"), c3fix (cs "/p/c.ts")]

/-- Counterexample to C3 as stated: when `/p/b.ts` cannot be read, not
only are its fixes skipped — the fixes of `/p/c.ts` (readable, with a
resolvable fix) are never applied either, and the loop ends with the
propagating failure instead of a per-file report entry.  Only the file
processed before the failure was written. -/
theorem c3_counterexample :
    ((applyFixesLoop c3reader c3fixes).1.map Prod.fst = [cs "/p/a.ts"])
    ∧ (applyFixesLoop c3reader c3fixes).2 = some (cs "/p/b.ts")
    ∧ (cs "/p/c.ts") ∉ (applyFixesLoop c3reader c3fixes).1.map Prod.fst := by
  refine ⟨by decide, by decide, by decide⟩

/-- Witness for the amended C3 theorem at the counterexample input. -/
theorem c3_witness :
    applyFixesLoop c3reader ([c3fix (cs "/p/a.ts")] ++ c3fix (cs "/p/b.ts")
        :: [c3fix (cs "/p/c.ts")])
      = ((applyFixesLoop c3reader [c3fix (cs "/p/a.ts")]).1,
         some (cs "/p/b.ts")) :=
  c3_read_failure_aborts c3reader [c3fix (cs "/p/a.ts")] (cs "/p/b.ts")
    (c3fix (cs "/p/b.ts")).2 [c3fix (cs "/p/c.ts")]
    (by decide) (by decide)

/-! ### C8: files with only unresolvable missing imports -/

theorem mapPush_keys {m : List (Chars × List MissingImport)} {k : Chars}
    {v : MissingImport} :
    ∀ x ∈ keysOf (mapPush m k v), x = k ∨ x ∈ keysOf m := by
  induction m with
  | nil =>
    intro x hx
    left
    simpa [mapPush, keysOf] using hx
  | cons p rest ih =>
    intro x hx
    obtain ⟨k0, vs⟩ := p
    by_cases hk : k0 = k
    · rw [show mapPush ((k0, vs) :: rest) k v = (k0, vs ++ [v]) :: rest from by
        simp [mapPush, hk]] at hx
      simp only [keysOf, List.map_cons, List.mem_cons] at hx ⊢
      tauto
    · rw [show mapPush ((k0, vs) :: rest) k v
          = (k0, vs) :: mapPush rest k v from by simp [mapPush, hk]] at hx
      simp only [keysOf, List.map_cons, List.mem_cons] at hx ⊢
      rcases hx with rfl | hx'
      · tauto
      · rcases ih x hx' with h1 | h2
        · exact Or.inl h1
        · exact Or.inr (Or.inr h2)

theorem groupByFile_keys {ms : List MissingImport} :
    ∀ x ∈ keysOf (groupByFile ms), x ∈ ms.map (fun m => m.file) := by
  suffices h : ∀ (ms : List MissingImport)
      (acc : List (Chars × List MissingImport)),
      ∀ x ∈ keysOf (ms.foldl (fun a m => mapPush a m.file m) acc),
        x ∈ keysOf acc ∨ x ∈ ms.map (fun m => m.file) by
    intro x hx
    rcases h ms [] x hx with h0 | h1
    · cases h0
    · exact h1
  intro ms
  induction ms with
  | nil => intro acc x hx; exact Or.inl hx
  | cons m rest ih =>
    intro acc x hx
    rw [List.foldl_cons] at hx
    rcases ih (mapPush acc m.file m) x hx with h0 | h1
    · rcases mapPush_keys x h0 with rfl | h2
      · exact Or.inr (List.mem_cons_self _ _)
      · exact Or.inl h2
    · exact Or.inr (List.mem_cons_of_mem _ h1)

theorem applyFixesLoop_writes_keys (reader : Chars → Option Content) :
    ∀ (fx : List (Chars × List MissingImport)),
      ∀ w ∈ (applyFixesLoop reader fx).1, w.1 ∈ fx.map Prod.fst := by
  intro fx
  induction fx with
  | nil => intro w hw; cases hw
  | cons q rest ih =>
    intro w hw
    obtain ⟨fp, items⟩ := q
    rw [show applyFixesLoop reader ((fp, items) :: rest)
        = (match reader fp with
           | none => ([], some fp)
           | some content =>
             let step := applyFixesLoop reader rest
             match applyFixesFile content items with
             | some newContent => ((fp, newContent) :: step.1, step.2)
             | none => step) from rfl] at hw
    cases hr : reader fp with
    | none =>
      rw [hr] at hw
      cases hw
    | some content =>
      rw [hr] at hw
      dsimp only at hw
      cases ha : applyFixesFile content items with
      | some nc =>
        rw [ha] at hw
        dsimp only at hw
        rcases List.mem_cons.mp hw with rfl | hw'
        · exact List.mem_cons_self _ _
        · exact List.mem_cons_of_mem _ (ih w hw')
      | none =>
        rw [ha] at hw
        dsimp only at hw
        exact List.mem_cons_of_mem _ (ih w hw)

theorem mem_analyzeFile {missingOf : Content → List Chars}
    {cache : ExportCache} {aliases : List PathAlias} {fp : Chars}
    {c : Content} {m : MissingImport}
    (h : m ∈ analyzeFile missingOf cache aliases fp c) :
    ∃ id ∈ missingOf c, m =
      { identifier := id
        file := fp
        suggestion := (resolveImport cache aliases id fp).map fun r =>
          { source := r.source, isDefault := r.isDefault } } := by
  rcases List.mem_map.mp h with ⟨id, hid, rfl⟩
  exact ⟨id, hid, rfl⟩

/-- Claim C8: a file all of whose missing imports fail to resolve is
never written by the fix phase — its text stays byte for byte the
original — while each of its unresolved identifiers still appears in the
run report, with no suggestion. -/
theorem c8_unresolved_file_untouched (missingOf : Content → List Chars)
    (cache : ExportCache) (aliases : List PathAlias)
    (files : List (Chars × Content)) (f : Chars) (content : Content)
    (hnd : (files.map Prod.fst).Nodup)
    (hmem : (f, content) ∈ files)
    (hunres : ∀ id ∈ missingOf content,
      resolveImport cache aliases id f = none) :
    (∀ id ∈ missingOf content,
       ({ identifier := id, file := f, suggestion := none } : MissingImport)
         ∈ runReport missingOf cache aliases files)
    ∧ f ∉ ((runFixPhase missingOf cache aliases files).1.map Prod.fst)
    ∧ finalContent files (runFixPhase missingOf cache aliases files).1 f
        = some content := by
  have hreportf : ∀ m ∈ runReport missingOf cache aliases files,
      m.file = f → m.suggestion = none := by
    intro m hm hmf
    rcases List.mem_flatten.mp hm with ⟨l, hl, hml⟩
    rcases List.mem_map.mp hl with ⟨p, hp, rfl⟩
    obtain ⟨id, hid, rfl⟩ := mem_analyzeFile hml
    have hpf : p.1 = f := hmf
    have hcontent : p.2 = content := by
      refine assoc_unique hnd ?_ hmem
      rw [← hpf]
      exact hp
    rw [hcontent] at hid
    show Option.map (fun r => ({ source := r.source, isDefault := r.isDefault }
      : Suggestion)) (resolveImport cache aliases id p.1) = none
    rw [hpf, hunres id hid]
    rfl
  have hnowrite :
      f ∉ ((runFixPhase missingOf cache aliases files).1.map Prod.fst) := by
    intro hbad
    rcases List.mem_map.mp hbad with ⟨w, hw, hwf⟩
    have hkey := applyFixesLoop_writes_keys (lookupFile files) _ w hw
    have hkey' : w.1 ∈ keysOf (groupByFile
        ((runReport missingOf cache aliases files).filter
          (fun m => m.suggestion.isSome))) := hkey
    have := groupByFile_keys w.1 hkey'
    rcases List.mem_map.mp this with ⟨m, hmfilter, hmf⟩
    have hmrep := List.mem_of_mem_filter hmfilter
    have hsome : m.suggestion.isSome = true := by
      have := List.of_mem_filter hmfilter
      simpa using this
    have : m.suggestion = none := hreportf m hmrep (by rw [hmf, hwf])
    rw [this] at hsome
    cases hsome
  refine ⟨?_, hnowrite, ?_⟩
  · intro id hid
    have hentry : ({ identifier := id, file := f, suggestion := none }
        : MissingImport) ∈ analyzeFile missingOf cache aliases f content := by
      unfold analyzeFile
      refine List.mem_map.mpr ⟨id, hid, ?_⟩
      rw [hunres id hid]
      rfl
    refine List.mem_flatten.mpr ⟨analyzeFile missingOf cache aliases f content,
      List.mem_map.mpr ⟨(f, content), hmem, rfl⟩, hentry⟩
  · unfold finalContent
    have hfind : ((runFixPhase missingOf cache aliases files).1.find?
        (fun w => w.1 = f)) = none := by
      refine List.find?_eq_none.mpr ?_
      intro w hw
      simp only [decide_eq_true_iff]
      intro hwf
      exact hnowrite (List.mem_map.mpr ⟨w, hw, hwf⟩)
    rw [hfind]
    unfold lookupFile
    rw [find?_key_of_mem hnd hmem]
    rfl

/-- The one-file project of the C8 witness: its only missing identifier
resolves nowhere because the export index is empty. -/
def c8files : List (Chars × Content) :=
  [(cs "/p/App.tsx", [cs "const a = Zzz;"])]

/-- The parser stub of the C8 witness: the file's missing set. -/
def c8missingOf : Content → List Chars := fun _ => [cs "Zzz"]

/-- Witness for C8 at a concrete run: the identifier is reported with no
suggestion, the file is never written, and its text is unchanged. -/
theorem c8_witness :
    ({ identifier := cs "Zzz", file := cs "/p/App.tsx", suggestion := none }
        : MissingImport) ∈ runReport c8missingOf [] [] c8files
    ∧ (cs "/p/App.tsx")
        ∉ ((runFixPhase c8missingOf [] [] c8files).1.map Prod.fst)
    ∧ finalContent c8files (runFixPhase c8missingOf [] [] c8files).1
        (cs "/p/App.tsx") = some [cs "const a = Zzz;"] := by
  have h := c8_unresolved_file_untouched c8missingOf [] [] c8files
    (cs "/p/App.tsx") [cs "const a = Zzz;"] (by decide) (by decide) (by decide)
  exact ⟨h.1 (cs "Zzz") (by decide), h.2.1, h.2.2⟩

/-! ### C2: idempotence of the fix pass -/

/-- A plausible identifier: nonempty, starting with a letter or
underscore, all characters identifier characters. -/
def wfIdent (id : Chars) : Bool :=
  match id with
  | [] => false
  | c0 :: _ => (c0.isAlpha || c0 = '_') && id.all identChar

/-- A benign module specifier: contains neither `(` nor `<`, so a
rendered import line can never look like a call or a component tag. -/
def wfSpec (s : Chars) : Bool := s.all (fun c => c ≠ '(' && c ≠ '<')

theorem identChar_basic {c : Char} (h : identChar c = true) :
    c ≠ ',' ∧ c ≠ ' ' ∧ c ≠ '*' ∧ c ≠ obr ∧ c ≠ cbr ∧ c ≠ qc := by
  refine ⟨?_, ?_, ?_, ?_, ?_, ?_⟩ <;> rintro rfl <;> revert h <;> decide

theorem emits_nil (prev : Char) (run : Chars) (after : Option Char)
    (hprev : prev ≠ '<') (hafter : after ≠ some '(') :
    emits prev run after = [] := by
  unfold emits
  cases run with
  | nil => rfl
  | cons c0 r =>
    dsimp only
    split_ifs with h1 h2 h3 h4 <;>
      first
        | rfl
        | exact hprev h3.1
        | exact hafter h4.1

theorem scanAux_nil_of_safe :
    ∀ (l : Chars) (prev : Char) (run : Chars),
      (∀ c ∈ l, c ≠ '(' ∧ c ≠ '<') → prev ≠ '<' →
      scanAux prev run l = [] := by
  intro l
  induction l with
  | nil => intro prev run _ hprev; exact emits_nil prev run none hprev (by simp)
  | cons c rest ih =>
    intro prev run hsafe hprev
    have hc := hsafe c (List.mem_cons_self _ _)
    have hrest : ∀ x ∈ rest, x ≠ '(' ∧ x ≠ '<' :=
      fun x hx => hsafe x (List.mem_cons_of_mem _ hx)
    by_cases hic : identChar c = true
    · rw [show scanAux prev run (c :: rest)
          = scanAux prev (run ++ [c]) rest from by simp [scanAux, hic]]
      exact ih prev (run ++ [c]) hrest hprev
    · rw [show scanAux prev run (c :: rest)
          = emits prev run (some c) ++ scanAux c [] rest from by
            simp [scanAux, hic]]
      rw [emits_nil prev run (some c) hprev (by
        intro hbad
        injection hbad with hb
        exact hc.1 hb)]
      rw [ih c [] hrest hc.2]
      rfl

theorem wfIdent_chars {id : Chars} (h : wfIdent id = true) :
    ∀ x ∈ id, identChar x = true := by
  cases id with
  | nil => simp [wfIdent] at h
  | cons c0 r =>
    intro x hx
    simp only [wfIdent, Bool.and_eq_true] at h
    exact List.all_eq_true.mp h.2 x hx

theorem wfSpec_chars {s : Chars} (h : wfSpec s = true) :
    ∀ x ∈ s, x ≠ '(' ∧ x ≠ '<' := by
  intro x hx
  have := List.all_eq_true.mp h x hx
  simp only [Bool.and_eq_true, decide_eq_true_iff] at this
  exact this

theorem renderImport_safe {id src : Chars} (hid : wfIdent id = true)
    (hsrc : wfSpec src = true) (d : Bool) :
    ∀ c ∈ renderImport id src d, c ≠ '(' ∧ c ≠ '<' := by
  have hid' := wfIdent_chars hid
  have hsrc' := wfSpec_chars hsrc
  have hconst1 : ∀ x ∈ cs "import ", x ≠ '(' ∧ x ≠ '<' := by decide
  have hconst2 : ∀ x ∈ cs " from ", x ≠ '(' ∧ x ≠ '<' := by decide
  intro c hc
  cases d with
  | true =>
    have hform : renderImport id src true
        = ((((cs "import " ++ id) ++ cs " from ") ++ [qc]) ++ src)
            ++ [qc, ';'] := rfl
    rw [hform] at hc
    simp only [List.mem_append] at hc
    rcases hc with ((((h | h) | h) | h) | h) | h
    · exact hconst1 c h
    · exact identChar_not_paren (hid' c h)
    · exact hconst2 c h
    · have : c = qc := by simpa using h
      rw [this]; decide
    · exact hsrc' c h
    · rcases (by simpa using h : c = qc ∨ c = ';') with rfl | rfl <;> decide
  | false =>
    have hform : renderImport id src false
        = (((((((cs "import " ++ [obr, ' ']) ++ id) ++ [' ', cbr])
            ++ cs " from ") ++ [qc]) ++ src) ++ [qc, ';']) := rfl
    rw [hform] at hc
    simp only [List.mem_append] at hc
    rcases hc with ((((((h | h) | h) | h) | h) | h) | h) | h
    · exact hconst1 c h
    · rcases (by simpa using h : c = obr ∨ c = ' ') with rfl | rfl <;> decide
    · exact identChar_not_paren (hid' c h)
    · rcases (by simpa using h : c = ' ' ∨ c = cbr) with rfl | rfl <;> decide
    · exact hconst2 c h
    · have : c = qc := by simpa using h
      rw [this]; decide
    · exact hsrc' c h
    · rcases (by simpa using h : c = qc ∨ c = ';') with rfl | rfl <;> decide

/-- A rendered import line contributes no used identifiers. -/
theorem scanLine_renderImport {id src : Chars} (hid : wfIdent id = true)
    (hsrc : wfSpec src = true) (d : Bool) :
    scanLine (renderImport id src d) = [] :=
  scanAux_nil_of_safe _ ' ' [] (renderImport_safe hid hsrc d) (by decide)

theorem cs_import_cons : cs "import " = 'i' :: cs "mport " := rfl

theorem getLast?_snoc_semi (Y : Chars) : (Y ++ [';']).getLast? = some ';' := by
  rw [List.getLast?_append]
  rfl

/-- A list presented as a non-whitespace head and a `';'` last character
is unchanged by `trimChars`. -/
theorem trimChars_fixed {x : Chars} {c0 : Char} {Y : Chars}
    (hx : x = c0 :: (Y ++ [';'])) (hc0 : c0.isWhitespace = false) :
    trimChars x = x := by
  apply trimChars_eq_self
  · intro c hc
    rw [hx] at hc
    injection hc with h
    rw [← h]
    exact hc0
  · intro c hc
    rw [hx] at hc
    rw [show (c0 :: (Y ++ [';'])).getLast? = some ';' from by
      rw [show (c0 :: (Y ++ [';'])) = (c0 :: Y) ++ [';'] from by simp,
        getLast?_snoc_semi]] at hc
    injection hc with h
    rw [← h]
    decide

theorem renderImport_shape_true (id src : Chars) :
    renderImport id src true
      = 'i' :: ((cs "mport " ++ (id ++ (cs " from " ++ ([qc] ++ (src
          ++ [qc]))))) ++ [';']) := by
  simp [renderImport, cs_import_cons, List.append_assoc]

theorem renderImport_shape_false (id src : Chars) :
    renderImport id src false
      = 'i' :: ((cs "mport " ++ (obr :: ' ' :: (id ++ (' ' :: cbr ::
          (cs " from " ++ ([qc] ++ (src ++ [qc]))))))) ++ [';']) := by
  simp [renderImport, cs_import_cons, List.append_assoc]

theorem trim_renderImport (id src : Chars) (d : Bool) :
    trimChars (renderImport id src d) = renderImport id src d := by
  cases d with
  | true => exact trimChars_fixed (renderImport_shape_true id src) (by decide)
  | false => exact trimChars_fixed (renderImport_shape_false id src) (by decide)

theorem isImportLine_renderImport (id src : Chars) (d : Bool) :
    isImportLine (renderImport id src d) = true := by
  unfold isImportLine
  rw [trim_renderImport]
  cases d with
  | true =>
    rw [show renderImport id src true
        = cs "import " ++ (id ++ (cs " from " ++ ([qc] ++ (src ++ [qc, ';']))))
        from by simp [renderImport, List.append_assoc]]
    exact isPrefixOf_append_self _ _
  | false =>
    rw [show renderImport id src false
        = cs "import " ++ (obr :: ' ' :: (id ++ (' ' :: cbr ::
            (cs " from " ++ ([qc] ++ (src ++ [qc, ';']))))))
        from by simp [renderImport, List.append_assoc]]
    exact isPrefixOf_append_self _ _

theorem take_inner {id : Chars} (hall : ∀ x ∈ id, identChar x = true)
    (T : Chars) :
    (' ' :: (id ++ (' ' :: cbr :: T))).takeWhile (fun c => c ≠ cbr)
      = ' ' :: (id ++ [' ']) := by
  rw [List.takeWhile_cons, if_pos (by decide)]
  rw [takeWhile_append_all _ (fun x hx =>
    decide_eq_true (identChar_basic (hall x hx)).2.2.2.2.1)]
  rw [List.takeWhile_cons, if_pos (by decide)]
  rw [List.takeWhile_cons, if_neg (by simp)]

theorem trim_pad {id : Chars} (hne : id ≠ [])
    (hall : ∀ x ∈ id, identChar x = true) :
    trimChars (' ' :: (id ++ [' '])) = id := by
  unfold trimChars
  cases id with
  | nil => exact absurd rfl hne
  | cons c0 idr =>
    rw [List.dropWhile_cons, if_pos (by decide)]
    rw [show ((c0 :: idr) ++ [' ']) = c0 :: (idr ++ [' ']) from rfl]
    rw [List.dropWhile_cons,
      if_neg (by simp [identChar_not_ws (hall c0 (List.mem_cons_self _ _))])]
    rw [show (c0 :: (idr ++ [' '])) = (c0 :: idr) ++ [' '] from rfl]
    rw [List.reverse_append]
    rw [show ([' '] : Chars).reverse ++ (c0 :: idr).reverse
        = ' ' :: (c0 :: idr).reverse from rfl]
    rw [List.dropWhile_cons, if_pos (by decide)]
    cases hrev : (c0 :: idr).reverse with
    | nil => exact absurd hrev (by simp)
    | cons c1 r1 =>
      have hc1 : c1 ∈ c0 :: idr := by
        rw [← List.mem_reverse, hrev]
        exact List.mem_cons_self _ _
      rw [List.dropWhile_cons, if_neg (by simp [identChar_not_ws (hall c1 hc1)])]
      rw [← hrev, List.reverse_reverse]

theorem afterAs_ident {id : Chars} (hne : id ≠ [])
    (hall : ∀ x ∈ id, identChar x = true) :
    afterAs id = id := by
  unfold afterAs
  rw [splitCh_no_sep ' ' id (fun c hc => (identChar_basic (hall c hc)).2.1)]
  rw [show ([id] : List Chars).filter (fun w => w ≠ []) = [id] from by
    simp [hne]]

theorem importNames_pad {id : Chars} (hne : id ≠ [])
    (hall : ∀ x ∈ id, identChar x = true) :
    importNames (' ' :: (id ++ [' '])) = [id] := by
  unfold importNames
  have hcomma : ∀ c ∈ ' ' :: (id ++ [' ']), c ≠ ',' := by
    intro c hc
    rcases List.mem_cons.mp hc with rfl | hc2
    · decide
    · rcases List.mem_append.mp hc2 with h | h
      · exact (identChar_basic (hall c h)).1
      · have : c = ' ' := by simpa using h
        rw [this]
        decide
  rw [splitCh_no_sep ',' _ hcomma, List.map_cons, List.map_nil]
  rw [trim_pad hne hall, afterAs_ident hne hall]
  simp [hne]

/-- Parsing back the named import statement rendered for `identifier`
binds exactly that identifier. -/
theorem parseImportLine_render_false {id : Chars} (src : Chars)
    (hid : wfIdent id = true) :
    parseImportLine (renderImport id src false)
      = some { source := extractQuoted (renderImport id src false)
               imports := [id]
               isDefault := false
               isNamespace := false } := by
  have hall := wfIdent_chars hid
  have hne : id ≠ [] := by
    cases id with
    | nil => simp [wfIdent] at hid
    | cons a b => simp
  unfold parseImportLine
  rw [if_pos (isImportLine_renderImport id src false), trim_renderImport]
  rw [show (renderImport id src false).drop 7
      = obr :: ' ' :: (id ++ (' ' :: cbr ::
          (cs " from " ++ ([qc] ++ (src ++ [qc, ';']))))) from by
    rw [show renderImport id src false
        = cs "import " ++ (obr :: ' ' :: (id ++ (' ' :: cbr ::
            (cs " from " ++ ([qc] ++ (src ++ [qc, ';']))))))
        from by simp [renderImport, List.append_assoc]]
    rw [show (7 : Nat) = (cs "import ").length from rfl]
    exact List.drop_left _ _]
  rw [trimChars_fixed (show obr :: ' ' :: (id ++ (' ' :: cbr ::
      (cs " from " ++ ([qc] ++ (src ++ [qc, ';'])))))
      = obr :: ((' ' :: (id ++ (' ' :: cbr ::
          (cs " from " ++ ([qc] ++ (src ++ [qc])))))) ++ [';'])
    from by simp [List.append_assoc]) (by decide)]
  unfold importBranch
  rw [if_pos (show (obr :: ' ' :: (id ++ (' ' :: cbr ::
      (cs " from " ++ ([qc] ++ (src ++ [qc, ';'])))))).head? = some obr
    from rfl)]
  rw [show (obr :: ' ' :: (id ++ (' ' :: cbr ::
      (cs " from " ++ ([qc] ++ (src ++ [qc, ';'])))))).drop 1
      = ' ' :: (id ++ (' ' :: cbr ::
          (cs " from " ++ ([qc] ++ (src ++ [qc, ';']))))) from rfl]
  rw [take_inner hall _, importNames_pad hne hall]

/-- Parsing back the default import statement rendered for `identifier`
binds exactly that identifier. -/
theorem parseImportLine_render_true {id : Chars} (src : Chars)
    (hid : wfIdent id = true) :
    parseImportLine (renderImport id src true)
      = some { source := extractQuoted (renderImport id src true)
               imports := [id]
               isDefault := true
               isNamespace := false } := by
  have hall := wfIdent_chars hid
  have hne : id ≠ [] := by
    cases id with
    | nil => simp [wfIdent] at hid
    | cons a b => simp
  unfold parseImportLine
  rw [if_pos (isImportLine_renderImport id src true), trim_renderImport]
  rw [show (renderImport id src true).drop 7
      = id ++ (cs " from " ++ ([qc] ++ (src ++ [qc, ';']))) from by
    rw [show renderImport id src true
        = cs "import " ++ (id ++ (cs " from " ++ ([qc] ++ (src ++ [qc, ';']))))
        from by simp [renderImport, List.append_assoc]]
    rw [show (7 : Nat) = (cs "import ").length from rfl]
    exact List.drop_left _ _]
  cases hidc : id with
  | nil => exact absurd hidc hne
  | cons c0 idr =>
    have hc0 : identChar c0 = true := by
      rw [hidc] at hall
      exact hall c0 (List.mem_cons_self _ _)
    rw [← hidc]
    have hRd : id ++ (cs " from " ++ ([qc] ++ (src ++ [qc, ';'])))
        = c0 :: ((idr ++ (cs " from " ++ ([qc] ++ (src ++ [qc])))) ++ [';']) := by
      rw [hidc]
      simp [List.append_assoc]
    rw [trimChars_fixed hRd (identChar_not_ws hc0)]
    unfold importBranch
    rw [if_neg (by
      rw [hRd]
      intro hbad
      injection hbad with hb
      exact (identChar_basic hc0).2.2.2.1 hb)]
    rw [if_neg (by
      intro hbad
      have := head?_of_isPrefixOf '*' (cs " as ") hbad
      rw [hRd] at this
      injection this with hb
      exact (identChar_basic hc0).2.2.1 hb)]
    rw [show id ++ (cs " from " ++ ([qc] ++ (src ++ [qc, ';'])))
        = id ++ (' ' :: (cs "from " ++ ([qc] ++ (src ++ [qc, ';'])))) from rfl]
    rw [takeIdent_append _ ' ' hall (by decide)]
    rw [if_neg hne]

/-- The names bound by the existing imports of a file. -/
def boundNames (c : Content) : List Chars :=
  ((c.filterMap parseImportLine).map (fun s => s.imports)).flatten

theorem parse_missing_eq (c : Content) :
    (parse c).missingImports =
      ((findUsedIdentifiers c).filter
        (fun n => decide (n ∉ boundNames c))).dedup := rfl

theorem findUsed_spliceAt {new : Content} (content : Content) (idx : Nat)
    (h : ∀ l ∈ new, scanLine l = []) :
    findUsedIdentifiers (spliceAt content idx new)
      = findUsedIdentifiers content := by
  unfold findUsedIdentifiers spliceAt
  rw [List.map_append, List.map_append, List.flatten_append, List.flatten_append]
  rw [show (new.map scanLine).flatten = [] from List.flatten_eq_nil_iff.mpr (by
    intro l hl
    rcases List.mem_map.mp hl with ⟨x, hx, rfl⟩
    exact h x hx)]
  conv_rhs => rw [← List.take_append_drop idx content]
  rw [List.map_append, List.flatten_append]
  simp

theorem boundNames_spliceAt (content new : Content) (idx : Nat) :
    boundNames (spliceAt content idx new)
      = boundNames (content.take idx) ++ boundNames new
          ++ boundNames (content.drop idx) := by
  unfold boundNames spliceAt
  rw [List.filterMap_append, List.filterMap_append, List.map_append,
    List.map_append, List.flatten_append, List.flatten_append]

theorem boundNames_take_drop (content : Content) (idx : Nat) :
    boundNames content
      = boundNames (content.take idx) ++ boundNames (content.drop idx) := by
  conv_lhs => rw [← List.take_append_drop idx content]
  unfold boundNames
  rw [List.filterMap_append, List.map_append, List.flatten_append]

theorem mem_boundNames {c : Content} {u : Chars}
    (h : ∃ l ∈ c, ∃ stmt, parseImportLine l = some stmt ∧ u ∈ stmt.imports) :
    u ∈ boundNames c := by
  obtain ⟨l, hl, stmt, hstmt, hu⟩ := h
  unfold boundNames
  refine List.mem_flatten.mpr ⟨stmt.imports, ?_, hu⟩
  exact List.mem_map.mpr ⟨stmt, List.mem_filterMap.mpr ⟨l, hl, hstmt⟩, rfl⟩

/-- The element that the analysis loop produces for one identifier. -/
def analyzedItem (cache : ExportCache) (aliases : List PathAlias)
    (f id : Chars) : MissingImport :=
  { identifier := id
    file := f
    suggestion := (resolveImport cache aliases id f).map fun r =>
      { source := r.source, isDefault := r.isDefault } }

theorem analyzeFile_eq_map (missingOf : Content → List Chars)
    (cache : ExportCache) (aliases : List PathAlias) (f : Chars)
    (c : Content) :
    analyzeFile missingOf cache aliases f c
      = (missingOf c).map (analyzedItem cache aliases f) := rfl

theorem analyzedItem_suggestion (cache : ExportCache)
    (aliases : List PathAlias) (f id : Chars) :
    (analyzedItem cache aliases f id).suggestion
      = (resolveImport cache aliases id f).map (fun r =>
          { source := r.source, isDefault := r.isDefault }) := rfl

theorem mem_newImports {cache : ExportCache} {aliases : List PathAlias}
    {f : Chars} {content : Content} {l : Chars}
    (hl : l ∈ (analyzeFile (fun c => (parse c).missingImports) cache aliases
        f content).filterMap (fun it => it.suggestion.map
          (fun s => renderImport it.identifier s.source s.isDefault))) :
    ∃ id ∈ (parse content).missingImports, ∃ r,
      resolveImport cache aliases id f = some r ∧
      l = renderImport id r.source r.isDefault := by
  rw [analyzeFile_eq_map] at hl
  rcases List.mem_filterMap.mp hl with ⟨it, hit, hout⟩
  rcases List.mem_map.mp hit with ⟨id, hid, rfl⟩
  rw [analyzedItem_suggestion] at hout
  cases hr : resolveImport cache aliases id f with
  | none =>
    rw [hr] at hout
    cases hout
  | some r =>
    rw [hr] at hout
    refine ⟨id, hid, r, hr, ?_⟩
    have h2 := Option.some.inj hout
    rw [← h2]
    rfl

/-- Claim C2 (per file): when every missing import of a file resolves
(to a well-formed identifier and a benign specifier) and the fix pass
writes the updated text, re-parsing that text finds zero missing imports,
so a second run performs no write for the file. -/
theorem c2_fix_idempotent (cache : ExportCache) (aliases : List PathAlias)
    (f : Chars) (content newContent : Content)
    (hwf : ∀ id ∈ (parse content).missingImports, wfIdent id = true)
    (hres : ∀ id ∈ (parse content).missingImports,
      ∃ r, resolveImport cache aliases id f = some r ∧ wfSpec r.source = true)
    (happly : applyFixesFile content
      (analyzeFile (fun c => (parse c).missingImports) cache aliases f content)
      = some newContent) :
    (parse newContent).missingImports = []
    ∧ ∀ (cache2 : ExportCache) (aliases2 : List PathAlias),
        applyFixesFile newContent
          (analyzeFile (fun c => (parse c).missingImports) cache2 aliases2 f
            newContent) = none := by
  unfold applyFixesFile at happly
  by_cases hni : (analyzeFile (fun c => (parse c).missingImports) cache aliases
      f content).filterMap (fun it => it.suggestion.map
        (fun s => renderImport it.identifier s.source s.isDefault)) = []
  · rw [if_pos hni] at happly
    cases happly
  · rw [if_neg hni] at happly
    have hnew := (Option.some.inj happly).symm
    have hscan : ∀ l ∈ (analyzeFile (fun c => (parse c).missingImports) cache
        aliases f content).filterMap (fun it => it.suggestion.map
          (fun s => renderImport it.identifier s.source s.isDefault)),
        scanLine l = [] := by
      intro l hl
      obtain ⟨id, hid, r, hr, rfl⟩ := mem_newImports hl
      obtain ⟨r', hr', hspec'⟩ := hres id hid
      have : r' = r := Option.some.inj (hr'.symm.trans hr)
      rw [this] at hspec'
      exact scanLine_renderImport (hwf id hid) hspec' r.isDefault
    have hbind : ∀ id ∈ (parse content).missingImports,
        id ∈ boundNames newContent := by
      intro id hid
      obtain ⟨r, hr, hspec⟩ := hres id hid
      have hline : renderImport id r.source r.isDefault
          ∈ (analyzeFile (fun c => (parse c).missingImports) cache aliases f
              content).filterMap (fun it => it.suggestion.map
                (fun s => renderImport it.identifier s.source s.isDefault)) := by
        rw [analyzeFile_eq_map]
        refine List.mem_filterMap.mpr ⟨analyzedItem cache aliases f id, ?_, ?_⟩
        · exact List.mem_map.mpr ⟨id, hid, rfl⟩
        · rw [analyzedItem_suggestion, hr]
          rfl
      have hstmt : ∃ stmt, parseImportLine (renderImport id r.source r.isDefault)
          = some stmt ∧ id ∈ stmt.imports := by
        cases hd : r.isDefault with
        | true =>
          refine ⟨_, parseImportLine_render_true r.source (hwf id hid), ?_⟩
          exact List.mem_singleton.mpr rfl
        | false =>
          refine ⟨_, parseImportLine_render_false r.source (hwf id hid), ?_⟩
          exact List.mem_singleton.mpr rfl
      obtain ⟨stmt, hps, hmemst⟩ := hstmt
      rw [hnew]
      rw [boundNames_spliceAt]
      refine List.mem_append.mpr (Or.inl (List.mem_append.mpr (Or.inr ?_)))
      exact mem_boundNames ⟨renderImport id r.source r.isDefault, hline,
        stmt, hps, hmemst⟩
    have hmain : (parse newContent).missingImports = [] := by
      rw [parse_missing_eq, List.dedup_eq_nil, List.filter_eq_nil_iff]
      intro u hu
      simp only [decide_eq_true_iff, not_not]
      have hu' : u ∈ findUsedIdentifiers content := by
        rw [hnew, findUsed_spliceAt content _ hscan] at hu
        exact hu
      by_cases hb : u ∈ boundNames content
      · rw [hnew, boundNames_spliceAt]
        rw [boundNames_take_drop content (insertIndexOf content)] at hb
        rcases List.mem_append.mp hb with h1 | h2
        · exact List.mem_append.mpr (Or.inl (List.mem_append.mpr (Or.inl h1)))
        · exact List.mem_append.mpr (Or.inr h2)
      · refine hbind u ?_
        rw [parse_missing_eq, List.mem_dedup]
        refine List.mem_filter.mpr ⟨hu', ?_⟩
        simpa using hb
    refine ⟨hmain, ?_⟩
    intro cache2 aliases2
    have hempty : analyzeFile (fun c => (parse c).missingImports) cache2 aliases2
        f newContent = [] := by
      show ((parse newContent).missingImports).map (analyzedItem cache2 aliases2 f) = []
      rw [hmain]
      rfl
    rw [hempty]
    rfl

/-- The file of the C2 witness: one missing component usage. -/
def c2content : Content := [cs "const a = 1;", cs "const b = <Card>x</Card>;"]

/-- The export of the file that defines the missing component. -/
def c2export : ExportInfo :=
  { name := cs "Card", source := cs "/p/Card.tsx", isDefault := false }

/-- The export index of the C2 witness run. -/
def c2cache : ExportCache := [(cs "/p/Card.tsx", [c2export])]

/-- Witness for C2 at a concrete project: after the first run inserts the
resolved import, the parse of the updated text has no missing imports and
a second fix application writes nothing. -/
theorem c2_witness :
    (parse (renderImport (cs "Card") (cs "./Card") false :: c2content)).missingImports
      = []
    ∧ applyFixesFile (renderImport (cs "Card") (cs "./Card") false :: c2content)
        (analyzeFile (fun c => (parse c).missingImports) c2cache []
          (cs "/p/App.tsx")
          (renderImport (cs "Card") (cs "./Card") false :: c2content)) = none := by
  have h := c2_fix_idempotent c2cache [] (cs "/p/App.tsx") c2content
    (renderImport (cs "Card") (cs "./Card") false :: c2content)
    (by decide)
    (by
      intro id hid
      rw [show (parse c2content).missingImports = [cs "Card"] from by decide] at hid
      have hidc : id = cs "Card" := by simpa using hid
      subst hidc
      exact ⟨{ name := cs "Card", source := cs "./Card", isDefault := false },
        by decide, by decide⟩)
    (by decide)
  exact ⟨h.1, h.2 c2cache []⟩

end AutoImport
